import Mathlib

/-!
Verification of the SCC library (directed-graph store, Tarjan and Kosaraju
strongly-connected-component engines, dispatcher).

Shallow embedding of the C sources:
  * `src/include/scc.h`       — error codes, `graph_t`, `vertex_t`, `scc_result_t`
  * `src/src/graph.c`         — graph store operations
  * `src/src/tarjan.c`        — Tarjan engine
  * `src/unnamed/part_006`    — Kosaraju engine (`scc_kosaraju_internal`)
  * `src/src/memory.c`        — result accessors, dispatcher, heuristic

Machine integers (C `int`) are modelled as unbounded `Int`; the claims under
study do not hinge on 32-bit overflow.  Pointers cannot be null in the model:
the null-pointer guard branches of the C code are therefore not represented
(they are unreachable for the values the model can express).  Reads of
uninitialised or out-of-bounds memory are modelled as `Option.none`.
-/

namespace SCC

/-- Error codes, from `scc_error_t` in `src/include/scc.h` (values -1 .. -7).
Note the enum has no dedicated "edge not found" member. -/
def SCC_SUCCESS : Int := 0
def SCC_ERROR_NULL_POINTER : Int := -1
def SCC_ERROR_INVALID_VERTEX : Int := -2
def SCC_ERROR_MEMORY_ALLOCATION : Int := -3
def SCC_ERROR_GRAPH_EMPTY : Int := -4
def SCC_ERROR_INVALID_PARAMETER : Int := -5
def SCC_ERROR_VERTEX_EXISTS : Int := -6
def SCC_ERROR_EDGE_EXISTS : Int := -7

/-- A vertex: its id, its out-edge list (destination ids, list order = the
order of the singly linked `edge_t` chain), and the cached `out_degree`
counter.  The algorithm-specific fields (`index`, `lowlink`, `on_stack`,
`visited`) live in the engine states below; for graphs the engines touch,
`vertices[i].id == i`, so indexing by position is the same as following the
pointer. -/
structure Vertex where
  id : Int
  edges : List Int
  out_degree : Int
  deriving Repr, DecidableEq

/-- A graph (`graph_t`): the occupied prefix `vertices[0 .. num_vertices)` of
the vertex table is modelled by the list `vertices` (so `num_vertices` is its
length), together with the `num_edges` and `capacity` counters. -/
structure Graph where
  vertices : List Vertex
  num_edges : Int
  capacity : Int
  deriving Repr, DecidableEq

def Graph.num_vertices (g : Graph) : Int := (g.vertices.length : Int)

/-- `graph->vertices[i]` for an in-range position. -/
def Graph.vtx (g : Graph) (i : Int) : Vertex :=
  g.vertices.getD i.toNat ⟨0, [], 0⟩

/-- Replace the element at one position of a list, leaving others alone. -/
def modifyIdx {α : Type} : List α → Nat → (α → α) → List α
  | [], _, _ => []
  | a :: l, 0, f => f a :: l
  | a :: l, n + 1, f => a :: modifyIdx l n f

/-- `graph_has_edge` (graph.c:170-187): invalid indices yield `false`; else
scan `vertices[src].edges` for `dest`. -/
def graph_has_edge (g : Graph) (src dest : Int) : Bool :=
  if src < 0 || src ≥ g.num_vertices || dest < 0 || dest ≥ g.num_vertices then
    false
  else
    (g.vtx src).edges.contains dest

/-- `graph_add_edge` (graph.c:97-128): range-check, duplicate-check, then
prepend the new edge node and bump the two counters.  Returns the status
code and the resulting graph. -/
def graph_add_edge (g : Graph) (src dest : Int) : Int × Graph :=
  if src < 0 || src ≥ g.num_vertices || dest < 0 || dest ≥ g.num_vertices then
    (SCC_ERROR_INVALID_VERTEX, g)
  else if graph_has_edge g src dest then
    (SCC_ERROR_EDGE_EXISTS, g)
  else
    (SCC_SUCCESS,
     { g with
       vertices := modifyIdx g.vertices src.toNat
         (fun v => { v with edges := dest :: v.edges, out_degree := v.out_degree + 1 }),
       num_edges := g.num_edges + 1 })

/-- The scan-and-unlink loop of `graph_remove_edge`: remove the first
occurrence of `dest`, or report that none was found. -/
def removeFirstEdge : List Int → Int → Option (List Int)
  | [], _ => none
  | d :: rest, dest =>
      if d = dest then some rest
      else (removeFirstEdge rest dest).map (fun l => d :: l)

/-- `graph_remove_edge` (graph.c:130-167): range-check, scan; if found,
unlink the node and decrement both counters; if the scan falls off the end
the function returns `SCC_ERROR_INVALID_PARAMETER` — there is no dedicated
"edge not found" code in `scc_error_t`. -/
def graph_remove_edge (g : Graph) (src dest : Int) : Int × Graph :=
  if src < 0 || src ≥ g.num_vertices || dest < 0 || dest ≥ g.num_vertices then
    (SCC_ERROR_INVALID_VERTEX, g)
  else
    match removeFirstEdge (g.vtx src).edges dest with
    | some l =>
        (SCC_SUCCESS,
         { g with
           vertices := modifyIdx g.vertices src.toNat
             (fun v => { v with edges := l, out_degree := v.out_degree - 1 }),
           num_edges := g.num_edges - 1 })
    | none => (SCC_ERROR_INVALID_PARAMETER, g)

/-- The `for` loop of `graph_is_valid` (graph.c:312-328) over the remaining
vertices, carrying the slot index `i` and the running `edge_count`: per
vertex it checks `vertex->id == i`, every destination in range, and the
recounted `out_degree`; after the loop the total is compared with
`num_edges` (graph.c:330). -/
def isValidGo (nv ne : Int) : Int → Int → List Vertex → Bool
  | _, cnt, [] => cnt == ne
  | i, cnt, v :: rest =>
      v.id == i &&
      v.edges.all (fun d => !(d < 0) && d < nv) &&
      v.out_degree == (v.edges.length : Int) &&
      isValidGo nv ne (i + 1) (cnt + (v.edges.length : Int)) rest

/-- `graph_is_valid` (graph.c:307-331): structural bounds, then one pass over
the vertex table recomputing the out-degrees and the total edge count while
range-checking every destination.  The null-pointer checks of the C code are
unrepresentable here (the model has no null); `num_vertices < 0` likewise
cannot occur since `num_vertices` is a list length. -/
def graph_is_valid (g : Graph) : Bool :=
  if g.num_edges < 0 then false
  else if g.num_vertices > g.capacity then false
  else isValidGo g.num_vertices g.num_edges 0 0 g.vertices

/-! ### The five data-model invariants of spec §3 -/

/-- Invariant 1: every edge destination is in `[0, num_vertices)`. -/
def edgesInRange (g : Graph) : Prop :=
  ∀ v ∈ g.vertices, ∀ d ∈ v.edges, 0 ≤ d ∧ d < g.num_vertices

/-- Invariant 2: `out_degree` equals the edge-list length. -/
def degreesConsistent (g : Graph) : Prop :=
  ∀ v ∈ g.vertices, v.out_degree = (v.edges.length : Int)

/-- Invariant 3: `num_edges` is the sum of the out-degrees. -/
def edgeCountConsistent (g : Graph) : Prop :=
  g.num_edges = (g.vertices.map (fun v => v.out_degree)).sum

/-- The ids of a vertex list are consecutive starting at `i`. -/
def idsFrom : Int → List Vertex → Prop
  | _, [] => True
  | i, v :: rest => v.id = i ∧ idsFrom (i + 1) rest

instance instDecIdsFrom : (i : Int) → (l : List Vertex) → Decidable (idsFrom i l)
  | _, [] => isTrue trivial
  | i, _ :: rest =>
      haveI := instDecIdsFrom (i + 1) rest
      inferInstanceAs (Decidable (_ ∧ _))

/-- Invariant 4: `vertices[i].id == i`. -/
def idsConsistent (g : Graph) : Prop :=
  idsFrom 0 g.vertices

/-- Invariant 5: at most one edge `(u→v)` for any ordered pair. -/
def noDuplicateEdges (g : Graph) : Prop :=
  ∀ v ∈ g.vertices, v.edges.Nodup

instance (g : Graph) : Decidable (edgesInRange g) := by
  unfold edgesInRange; infer_instance

instance (g : Graph) : Decidable (degreesConsistent g) := by
  unfold degreesConsistent; infer_instance

instance (g : Graph) : Decidable (edgeCountConsistent g) := by
  unfold edgeCountConsistent; infer_instance

instance (g : Graph) : Decidable (idsConsistent g) := by
  unfold idsConsistent; infer_instance

instance (g : Graph) : Decidable (noDuplicateEdges g) := by
  unfold noDuplicateEdges; infer_instance

/-! ### Tarjan engine (`src/src/tarjan.c`) -/

/-- Read `l[i]`, with a default for the (never exercised on real runs)
out-of-range accesses. -/
def getAt {α : Type} (l : List α) (i : Int) (d : α) : α :=
  if i < 0 then d else l.getD i.toNat d

/-- Write `l[i] := a`; out-of-range writes (undefined behaviour in C, never
exercised on real runs) leave the list unchanged. -/
def setAt {α : Type} (l : List α) (i : Int) (a : α) : List α :=
  if i < 0 then l else modifyIdx l i.toNat (fun _ => a)

/-- The Tarjan engine state: `tarjan_state_t` (scc_algorithms.h) merged with
the per-vertex algorithm fields `index` / `lowlink` / `on_stack` that the C
code stores inside `vertex_t` (all re-initialised at the start of every run
by `scc_tarjan_internal`, tarjan.c:169-175), plus the owned result buffer.
The `stack` list holds `stack[0..stack_top)` with the head as top of stack.
The last five fields are ghost instrumentation: they are written, never
read, by the algorithm. -/
structure TState where
  idx : List Int
  low : List Int
  onStack : List Bool
  stack : List Int
  stackCap : Int
  currentIndex : Int
  currentComponent : Int
  components : List (List Int)
  vertexToComponent : List (Option Int)
  numComponents : Int
  grew : Bool
  maxTop : Nat
  pushes : List Int
  popUnderflow : Bool
  fuelOut : Bool
  deriving Repr, DecidableEq

/-- `tarjan_stack_push` (tarjan.c:116-130): double the capacity when full
(ghost-recorded in `grew`), then store at `stack[stack_top++]`. -/
def tarjan_stack_push (s : TState) (v : Int) : TState :=
  { s with
    stackCap := if (s.stack.length : Int) ≥ s.stackCap then s.stackCap * 2
                else s.stackCap,
    grew := if (s.stack.length : Int) ≥ s.stackCap then true else s.grew,
    stack := v :: s.stack,
    maxTop := max s.maxTop (s.stack.length + 1),
    pushes := s.pushes ++ [v] }

/-- The pop loop of `tarjan_extract_scc` (tarjan.c:275-284): pop, append the
popped vertex to the current component, record its component id, stop once
the root has been popped.  In C a pop from an empty stack returns `-1` and
the loop would never terminate; the model flags that (unreachable on real
runs) situation in `popUnderflow` and stops.  Note: the C code does NOT
clear `on_stack` here (the comment at tarjan.c:277-278 concedes that doing
so would need access it does not have), and neither does the model. -/
def extractGo (root : Int) : List Int → TState → TState
  | [], s => { s with stack := [], popUnderflow := true }
  | w :: rest, s =>
      let s' :=
        { s with
          stack := rest,
          components := modifyIdx s.components s.currentComponent.toNat
            (fun c => c ++ [w]),
          vertexToComponent := setAt s.vertexToComponent w (some s.currentComponent) }
      if w = root then s' else extractGo root rest s'

/-- `tarjan_extract_scc` (tarjan.c:271-288): the pop loop, then increment the
component counters. -/
def tarjan_extract_scc (s : TState) (root : Int) : TState :=
  let s' := extractGo root s.stack s
  { s' with
    currentComponent := s'.currentComponent + 1,
    numComponents := s'.numComponents + 1 }

/-- The DFS entry of `tarjan_dfs_recursive` (tarjan.c:239-242): assign
`index = lowlink = current_index++`, set `on_stack`, push. -/
def tarjanVisit (v : Int) (s : TState) : TState :=
  let i := s.currentIndex
  tarjan_stack_push
    { s with
      idx := setAt s.idx v i,
      low := setAt s.low v i,
      currentIndex := i + 1,
      onStack := setAt s.onStack v true } v

/-- The edge loop of `tarjan_dfs_recursive` (tarjan.c:245-263), parameterised
by the recursive call: tree edge (recurse, then fold the child's lowlink),
back edge to an on-stack vertex (fold its index), else ignore. -/
def tarjanEdgesGo (dfs : Int → TState → TState) (v : Int) :
    List Int → TState → TState
  | [], s => s
  | w :: ws, s =>
      let s' :=
        if getAt s.idx w 0 = -1 then
          let s1 := dfs w s
          { s1 with low := setAt s1.low v (min (getAt s1.low v 0) (getAt s1.low w 0)) }
        else if getAt s.onStack w false then
          { s with low := setAt s.low v (min (getAt s.low v 0) (getAt s.idx w 0)) }
        else s
      tarjanEdgesGo dfs v ws s'

/-- `tarjan_dfs_recursive` (tarjan.c:236-269), with fuel making the
recursion structural; `fuelOut` (ghost) records fuel exhaustion, which never
happens when the fuel is at least the number of unvisited vertices. -/
def tarjanDFS (g : Graph) : Nat → Int → TState → TState
  | 0, _, s => { s with fuelOut := true }
  | f + 1, v, s =>
      let s1 := tarjanVisit v s
      let s2 := tarjanEdgesGo (tarjanDFS g f) v (g.vtx v).edges s1
      if getAt s2.low v 0 = getAt s2.idx v 0 then tarjan_extract_scc s2 v else s2

/-- The initial engine state: `tarjan_state_create` (tarjan.c:13-94, stack
capacity = `num_vertices`, counters zero, result buffers — the
`vertex_to_component` array is `malloc`ed and stays uninitialised, modelled
as `none` entries) together with the per-vertex field reset of
`scc_tarjan_internal` (tarjan.c:169-175). -/
def tarjanInit (g : Graph) : TState :=
  let n := g.vertices.length
  { idx := List.replicate n (-1)
    low := List.replicate n (-1)
    onStack := List.replicate n false
    stack := []
    stackCap := (n : Int)
    currentIndex := 0
    currentComponent := 0
    components := List.replicate n []
    vertexToComponent := List.replicate n none
    numComponents := 0
    grew := false
    maxTop := 0
    pushes := []
    popUnderflow := false
    fuelOut := false }

/-- The root loop of `scc_tarjan_internal` (tarjan.c:178-182): DFS from each
vertex whose index is still `-1`. -/
def tarjanMainLoop (g : Graph) : List Nat → TState → TState
  | [], s => s
  | i :: is, s =>
      let s' :=
        if getAt s.idx (i : Int) 0 = -1 then
          tarjanDFS g g.vertices.length (i : Int) s
        else s
      tarjanMainLoop g is s'

/-- One whole Tarjan run over a non-empty graph (state creation, field reset,
root loop).  Fuel `num_vertices` per root call is enough: a chain of nested
DFS calls visits pairwise distinct vertices. -/
def tarjanRun (g : Graph) : TState :=
  tarjanMainLoop g (List.range g.vertices.length) (tarjanInit g)

/-- `scc_result_t` (scc.h): the component list (first `num_components`
entries are meaningful), the dense vertex→component map (`none` = the entry
was never written and holds indeterminate memory), and the component count.
The three statistics fields are not modelled (no claim mentions them). -/
structure SCCResult where
  components : List (List Int)
  numComponents : Int
  vertexToComponent : List (Option Int)
  deriving Repr, DecidableEq

/-- `scc_find_tarjan` (tarjan.c:212-233): null/empty guards, then run the
engine and hand the result out. -/
def scc_find_tarjan (g : Graph) : Option SCCResult :=
  if g.num_vertices ≤ 0 then none
  else
    let s := tarjanRun g
    some ⟨s.components, s.numComponents, s.vertexToComponent⟩

/-! ### Vertex insertion and transpose (`src/src/graph.c`) -/

/-- `graph_create` (graph.c:15-43): negative capacity is rejected
(`SCC_ERROR_INVALID_PARAMETER`, NULL return, modelled as `none`), zero picks
the default 16.  Allocation failure is not modelled. -/
def graph_create (initial_capacity : Int) : Option Graph :=
  if initial_capacity < 0 then none
  else some ⟨[], 0, if initial_capacity = 0 then 16 else initial_capacity⟩

/-- `graph_add_vertex` (graph.c:72-95): double the capacity when full, then
append a fresh vertex (id = old `num_vertices`, empty edge list, degree 0)
and return its id. -/
def graph_add_vertex (g : Graph) : Int × Graph :=
  let g1 :=
    if (g.vertices.length : Int) ≥ g.capacity then
      { g with capacity := g.capacity * 2 }
    else g
  ((g.vertices.length : Int),
   { g1 with vertices := g1.vertices ++ [⟨(g.vertices.length : Int), [], 0⟩] })

/-- `k` successive `graph_add_vertex` calls (the vertex loops of
`graph_copy` / `graph_transpose`; the `!= i` abort they guard against cannot
happen in the model since allocation never fails). -/
def addVertices : Graph → Nat → Graph
  | g, 0 => g
  | g, k + 1 => addVertices (graph_add_vertex g).2 k

/-- The nested edge loops of `graph_transpose` / `graph_copy`, vertex-major
from slot `i`, edge-list order within a vertex. -/
def edgePairsGo : Int → List Vertex → List (Int × Int)
  | _, [] => []
  | i, v :: rest => v.edges.map (fun d => (i, d)) ++ edgePairsGo (i + 1) rest

/-- All edges of a graph as `(src, dest)` pairs, vertex-major and in list
order — exactly the order the nested loops of `graph_transpose` visit. -/
def edgePairs (g : Graph) : List (Int × Int) :=
  edgePairsGo 0 g.vertices

/-- One `graph_add_edge` call whose failure aborts the surrounding loop with
NULL (`none`), as in `graph_transpose` / `graph_copy`. -/
def addEdgeChecked (t : Graph) (p : Int × Int) : Option Graph :=
  let r := graph_add_edge t p.1 p.2
  if r.1 = SCC_SUCCESS then some r.2 else none

/-- Add a list of edges in order, aborting on the first failure. -/
def addAll (ps : List (Int × Int)) (t : Graph) : Option Graph :=
  ps.foldlM addEdgeChecked t

/-- `graph_transpose` (graph.c:252-284): create a graph with the source's
capacity, add the same number of vertices, then for every edge `(u→v)` of
the source (vertex-major, list order) add `(v→u)`; any failure yields NULL. -/
def graph_transpose (g : Graph) : Option Graph :=
  match graph_create g.capacity with
  | none => none
  | some t0 => addAll ((edgePairs g).map (fun p => (p.2, p.1))) (addVertices t0 g.vertices.length)

/-! ### Kosaraju engine (`src/unnamed/part_006`) -/

/-- The Kosaraju engine state (`kosaraju_state_t` plus the owned result
buffer).  `vtc` is the result's `vertex_to_component` array, which
`kosaraju_state_create` initialises to `-1` (part_006:94).  `fuelOut` is
ghost instrumentation for the model's structural fuel. -/
structure KState where
  visited1 : List Bool
  visited2 : List Bool
  finishOrder : List Int
  currentComponent : Int
  components : List (List Int)
  vtc : List Int
  numComponents : Int
  fuelOut : Bool
  deriving Repr, DecidableEq

/-- The edge loop of `kosaraju_dfs_first_recursive` (part_006:224-229). -/
def kosarajuEdges1 (dfs : Int → KState → KState) : List Int → KState → KState
  | [], s => s
  | w :: ws, s =>
      let s' := if getAt s.visited1 w false then s else dfs w s
      kosarajuEdges1 dfs ws s'

/-- `kosaraju_dfs_first_recursive` (part_006:218-233): mark visited, recurse
on unvisited successors, append to the finish order on completion. -/
def kosarajuDFS1 (g : Graph) : Nat → Int → KState → KState
  | 0, _, s => { s with fuelOut := true }
  | f + 1, v, s =>
      let s1 := { s with visited1 := setAt s.visited1 v true }
      let s2 := kosarajuEdges1 (kosarajuDFS1 g f) (g.vtx v).edges s1
      { s2 with finishOrder := s2.finishOrder ++ [v] }

/-- The edge loop of `kosaraju_dfs_second_recursive` (part_006:246-251). -/
def kosarajuEdges2 (dfs : Int → KState → KState) : List Int → KState → KState
  | [], s => s
  | w :: ws, s =>
      let s' := if getAt s.visited2 w false then s else dfs w s
      kosarajuEdges2 dfs ws s'

/-- `kosaraju_dfs_second_recursive` (part_006:235-252), running on the
transpose: mark visited, append to the current component, record the
component id, recurse on unvisited successors. -/
def kosarajuDFS2 (t : Graph) : Nat → Int → KState → KState
  | 0, _, s => { s with fuelOut := true }
  | f + 1, v, s =>
      let s1 :=
        { s with
          visited2 := setAt s.visited2 v true,
          components := modifyIdx s.components s.currentComponent.toNat
            (fun c => c ++ [v]),
          vtc := setAt s.vtc v s.currentComponent }
      kosarajuEdges2 (kosarajuDFS2 t f) (t.vtx v).edges s1

/-- `kosaraju_state_create` (part_006:12-100). -/
def kosarajuInit (n : Nat) : KState :=
  { visited1 := List.replicate n false
    visited2 := List.replicate n false
    finishOrder := []
    currentComponent := 0
    components := List.replicate n []
    vtc := List.replicate n (-1)
    numComponents := 0
    fuelOut := false }

/-- Pass-1 root loop of `scc_kosaraju_internal` (part_006:140-144). -/
def kosarajuPass1 (g : Graph) (fuel : Nat) : List Nat → KState → KState
  | [], s => s
  | i :: is, s =>
      let s' :=
        if getAt s.visited1 (i : Int) false then s
        else kosarajuDFS1 g fuel (i : Int) s
      kosarajuPass1 g fuel is s'

/-- Pass-2 loop of `scc_kosaraju_internal` (part_006:153-160): walk the
finish order backwards; each DFS tree on the transpose closes one component. -/
def kosarajuPass2 (t : Graph) (fuel : Nat) : List Int → KState → KState
  | [], s => s
  | v :: vs, s =>
      let s' :=
        if getAt s.visited2 v false then s
        else
          let s1 := kosarajuDFS2 t fuel v s
          { s1 with
            currentComponent := s1.currentComponent + 1,
            numComponents := s1.numComponents + 1 }
      kosarajuPass2 t fuel vs s'

/-- `scc_find_kosaraju` (part_006:194-215) together with
`scc_kosaraju_internal` (part_006:127-183): guards, pass 1, transpose
construction (NULL propagates), pass 2.  The statistics fields are not
modelled (no claim mentions them). -/
def scc_find_kosaraju (g : Graph) : Option SCCResult :=
  if g.num_vertices ≤ 0 then none
  else
    let n := g.vertices.length
    let s1 := kosarajuPass1 g n (List.range n) (kosarajuInit n)
    match graph_transpose g with
    | none => none
    | some t =>
        let s2 := kosarajuPass2 t n s1.finishOrder.reverse s1
        some ⟨s2.components, s2.numComponents, s2.vtc.map some⟩

/-! ### Dispatcher, heuristic and result accessors (`src/src/memory.c`) -/

/-- `scc_algorithm_choice_t` (scc_algorithms.h). -/
inductive AlgChoice where
  | auto
  | tarjan
  | kosaraju
  deriving Repr, DecidableEq

/-- `scc_recommend_algorithm` (memory.c:400-426).  The C computes
`density = (double)num_edges / ((double)num_vertices * num_vertices)`;
the model uses exact rational arithmetic for that quotient. -/
def scc_recommend_algorithm (g : Graph) : AlgChoice :=
  let nv := g.num_vertices
  let ne := g.num_edges
  if nv = 0 then .tarjan
  else
    let density : ℚ := (ne : ℚ) / ((nv : ℚ) * (nv : ℚ))
    if nv < 1000 then .tarjan
    else if density > 1 / 10 then .kosaraju
    else .tarjan

/-- `scc_find` (memory.c:344-361): pick the engine by the heuristic and
delegate (`auto` falls into the `default` branch, Tarjan). -/
def scc_find (g : Graph) : Option SCCResult :=
  match scc_recommend_algorithm g with
  | .tarjan => scc_find_tarjan g
  | .kosaraju => scc_find_kosaraju g
  | .auto => scc_find_tarjan g

/-- `scc_get_vertex_component` (memory.c:258-271): negative vertex ids get
`SCC_ERROR_INVALID_VERTEX` recorded and `-1` returned; otherwise the entry
`vertex_to_component[vertex]` is read with NO upper range check (the comment
at memory.c:264 concedes the total vertex count is unknown there).  An
out-of-bounds or uninitialised read has no defined value: `none`. -/
def scc_get_vertex_component (r : SCCResult) (vertex : Int) : Option Int :=
  if vertex < 0 then some (-1)
  else
    match r.vertexToComponent.get? vertex.toNat with
    | some (some c) => some c
    | some none => none
    | none => none

/-! ### Observations on results, and concrete inputs used by the theorems -/

/-- The meaningful components of a result: the first `num_components`
entries of the component array. -/
def componentsListOf (r : SCCResult) : List (List Int) :=
  r.components.take r.numComponents.toNat

/-- In how many of the result's components a vertex id occurs. -/
def memberCount (r : SCCResult) (v : Int) : Nat :=
  ((componentsListOf r).filter (fun c => c.contains v)).length

/-- The partition property of spec §3 / §8-1: every vertex id in
`[0, n)` occurs in exactly one component. -/
def isPartitionResult (r : SCCResult) (n : Nat) : Prop :=
  ∀ i ∈ List.range n, memberCount r (i : Int) = 1

instance (r : SCCResult) (n : Nat) : Decidable (isPartitionResult r n) := by
  unfold isPartitionResult; infer_instance

/-- Two results describe the same unordered partition of `[0, n)`: the
same-component relation agrees on every pair of vertices, and every vertex
is covered by each.  (Spec §4.4 note: tests must compare partitions, not
ordered component lists.) -/
def samePartition (r₁ r₂ : SCCResult) (n : Nat) : Prop :=
  isPartitionResult r₁ n ∧ isPartitionResult r₂ n ∧
  ∀ i ∈ List.range n, ∀ j ∈ List.range n,
    ((componentsListOf r₁).filter (fun c => c.contains (i : Int) && c.contains (j : Int))).length =
    ((componentsListOf r₂).filter (fun c => c.contains (i : Int) && c.contains (j : Int))).length

instance (r₁ r₂ : SCCResult) (n : Nat) : Decidable (samePartition r₁ r₂ n) := by
  unfold samePartition; infer_instance

/-- Two vertices `0` and `1`, a single edge `1 → 0`; both SCC engines must
return the two singleton components `{0}` and `{1}`. -/
def gBug2 : Graph := ⟨[⟨0, [], 0⟩, ⟨1, [0], 1⟩], 1, 2⟩

/-- A single vertex with no edges. -/
def gOne : Graph := ⟨[⟨0, [], 0⟩], 0, 1⟩

/-- A structurally consistent graph value holding the edge `0 → 1` twice:
out-degrees and `num_edges` match the lists, ids match the slots, all
destinations are in range — only the no-duplicate-edge invariant fails. -/
def gDup : Graph := ⟨[⟨0, [1, 1], 2⟩, ⟨1, [], 0⟩], 2, 2⟩

/-- Two vertices and no edges at all. -/
def gNoEdge : Graph := ⟨[⟨0, [], 0⟩, ⟨1, [], 0⟩], 0, 2⟩

/-- A well-formed two-vertex result (components `{1}` and `{0}`), used to
probe the result accessors. -/
def rEx : SCCResult := ⟨[[1], [0]], 2, [some 1, some 0]⟩

/-- Three vertices, edges `0 → 1` and `0 → 2`, used as witness input. -/
def gW3 : Graph := ⟨[⟨0, [2, 1], 2⟩, ⟨1, [], 0⟩, ⟨2, [], 0⟩], 2, 4⟩

/-- 1000 isolated vertices and a (consistent-counters) edge count of
200000, putting the density at 0.2; used as witness input for the
heuristic. -/
def gBig : Graph := ⟨List.replicate 1000 ⟨0, [], 0⟩, 200000, 1000⟩

/-- The Tarjan engine-state invariant behind claim C10 (for a graph with
`n` vertices): the stack and the ghost push log hold pairwise-distinct
in-range vertices whose `index` field has been assigned, the stack capacity
is still the initial `n` and the doubling branch has not been taken, the
high-water mark of `stack_top` is at most `n`, the DFS counter is
nonnegative, and the `index` array has length `n`. -/
def TInv (n : Nat) (s : TState) : Prop :=
  s.stack.Nodup ∧
  (∀ w ∈ s.stack, 0 ≤ w ∧ w < (n : Int) ∧ getAt s.idx w 0 ≠ -1) ∧
  s.pushes.Nodup ∧
  (∀ w ∈ s.pushes, 0 ≤ w ∧ w < (n : Int) ∧ getAt s.idx w 0 ≠ -1) ∧
  s.stackCap = (n : Int) ∧
  s.grew = false ∧
  s.maxTop ≤ n ∧
  0 ≤ s.currentIndex ∧
  s.idx.length = n

/-- Number of vertices whose `index` is still `-1` (the fuel measure of the
model's DFS). -/
def unvisited (n : Nat) (s : TState) : Nat :=
  ((List.range n).filter (fun i : Nat => getAt s.idx ((i : Nat) : Int) 0 == -1)).length

/-! ## Theorems -/

/-- C1.  The claim — for every graph with `num_vertices > 0`, `scc_find`
returns a partition of `[0, num_vertices)` — fails on the code: on the
two-vertex graph with the single edge `1 → 0`, `scc_find` (which dispatches
to Tarjan, since `num_vertices < 1000`) returns one component `{0}` and
vertex `1` belongs to no component; its `vertex_to_component` entry is never
written (because `tarjan_extract_scc` never clears `on_stack`, the edge
`1 → 0` to the completed component `{0}` is misclassified as a back edge,
`lowlink[1]` drops to `0 ≠ index[1]`, and vertex `1` is never extracted).
This contradicts the repo's own architecture document, whose
`tarjan_dfs` clears `on_stack` on every pop, and its algorithm-agreement
tests. -/
theorem c1_scc_find_partition_violated :
    0 < gBug2.num_vertices ∧
    scc_find gBug2 = some ⟨[[0], []], 1, [some 0, none]⟩ ∧
    memberCount ⟨[[0], []], 1, [some 0, none]⟩ 1 = 0 ∧
    ¬ isPartitionResult ⟨[[0], []], 1, [some 0, none]⟩ 2 := by
  refine ⟨by decide, by decide, by decide, by decide⟩

/-- C2.  The claim — the Tarjan and Kosaraju engines produce the same
unordered partition on every graph — fails on the code: on the two-vertex
graph with the single edge `1 → 0`, Kosaraju returns the correct two
singleton components while Tarjan (whose `on_stack` flags are never
cleared) returns a single component `{0}` and leaves vertex `1`
unassigned. -/
theorem c2_engines_disagree :
    scc_find_tarjan gBug2 = some ⟨[[0], []], 1, [some 0, none]⟩ ∧
    scc_find_kosaraju gBug2 = some ⟨[[1], [0]], 2, [some 1, some 0]⟩ ∧
    memberCount ⟨[[0], []], 1, [some 0, none]⟩ 1 = 0 ∧
    memberCount ⟨[[1], [0]], 2, [some 1, some 0]⟩ 1 = 1 ∧
    ¬ samePartition ⟨[[0], []], 1, [some 0, none]⟩
        ⟨[[1], [0]], 2, [some 1, some 0]⟩ 2 := by
  refine ⟨by decide, by decide, by decide, by decide, by decide⟩

/-- C3.  The claim describes `tarjan_extract_scc` as popping until the root,
forming the SCC, clearing each popped vertex's `on_stack` flag, setting its
`vertex_to_component` entry, and incrementing the component id.  The code
does everything EXCEPT clear `on_stack` (tarjan.c:271-288; the comment
there concedes separate tracking would be needed).  Already on the
one-vertex graph: after the run, vertex `0` has been popped into component
`0` (stack empty, counters incremented, map written) yet its `on_stack`
flag is still `true`. -/
theorem c3_on_stack_never_cleared :
    (tarjanRun gOne).stack = [] ∧
    (tarjanRun gOne).components = [[0]] ∧
    (tarjanRun gOne).vertexToComponent = [some 0] ∧
    (tarjanRun gOne).currentComponent = 1 ∧
    (tarjanRun gOne).numComponents = 1 ∧
    (tarjanRun gOne).onStack = [true] := by
  refine ⟨by decide, by decide, by decide, by decide, by decide, by decide⟩

/-! Helper lemmas about `modifyIdx` / `removeFirstEdge` / `getAt` / `setAt`. -/

theorem modifyIdx_length {α : Type} (l : List α) (n : Nat) (f : α → α) :
    (modifyIdx l n f).length = l.length := by
  induction l generalizing n with
  | nil => rfl
  | cons a t ih =>
      cases n with
      | zero => rfl
      | succ m => simpa [modifyIdx] using ih m

theorem getD_modifyIdx_self {α : Type} (l : List α) (n : Nat) (f : α → α)
    (d : α) (h : n < l.length) :
    (modifyIdx l n f).getD n d = f (l.getD n d) := by
  induction l generalizing n with
  | nil => simp at h
  | cons a t ih =>
      cases n with
      | zero => rfl
      | succ m =>
          simp only [modifyIdx, List.getD_cons_succ]
          exact ih m (by simpa using h)

theorem getD_modifyIdx_ne {α : Type} (l : List α) (n m : Nat) (f : α → α)
    (d : α) (h : m ≠ n) :
    (modifyIdx l n f).getD m d = l.getD m d := by
  induction l generalizing n m with
  | nil => rfl
  | cons a t ih =>
      cases n with
      | zero =>
          cases m with
          | zero => exact absurd rfl h
          | succ k => rfl
      | succ j =>
          cases m with
          | zero => rfl
          | succ k =>
              simp only [modifyIdx, List.getD_cons_succ]
              exact ih j k (fun hk => h (by omega))

theorem removeFirstEdge_eq_none_iff (l : List Int) (d : Int) :
    removeFirstEdge l d = none ↔ d ∉ l := by
  induction l with
  | nil => simp [removeFirstEdge]
  | cons a t ih =>
      by_cases hd : a = d
      · subst hd; simp [removeFirstEdge]
      · simp [removeFirstEdge, hd, Option.map_eq_none', ih, Ne.symm hd]

theorem removeFirstEdge_eq_some (l l' : List Int) (d : Int)
    (h : removeFirstEdge l d = some l') : l' = l.erase d := by
  induction l generalizing l' with
  | nil => simp [removeFirstEdge] at h
  | cons a t ih =>
      by_cases hd : a = d
      · subst hd
        simp [removeFirstEdge] at h
        rw [List.erase_cons_head, ← h]
      · simp only [removeFirstEdge, if_neg hd, Option.map_eq_some'] at h
        obtain ⟨t', ht', rfl⟩ := h
        have hbeq : (a == d) = false := by simp [hd]
        simp [List.erase_cons, hbeq, ih t' ht']

/-- C7.  `graph_add_edge` on valid indices: a duplicate insert returns
`SCC_ERROR_EDGE_EXISTS` with the graph untouched; otherwise it returns
success, prepends the destination to `vertices[src].edges`, increments
`out_degree[src]` and `num_edges`, and leaves every other vertex alone.
`src = dst` (a self-loop) is permitted — no hypothesis excludes it, and the
witness below exercises it. -/
theorem c7_graph_add_edge_contract (g : Graph) (src dest : Int)
    (h1 : 0 ≤ src) (h2 : src < g.num_vertices)
    (h3 : 0 ≤ dest) (h4 : dest < g.num_vertices) :
    (graph_has_edge g src dest = true →
      graph_add_edge g src dest = (SCC_ERROR_EDGE_EXISTS, g)) ∧
    (graph_has_edge g src dest = false →
      (graph_add_edge g src dest).1 = SCC_SUCCESS ∧
      ((graph_add_edge g src dest).2.vtx src).edges = dest :: (g.vtx src).edges ∧
      ((graph_add_edge g src dest).2.vtx src).out_degree = (g.vtx src).out_degree + 1 ∧
      (graph_add_edge g src dest).2.num_edges = g.num_edges + 1 ∧
      (graph_add_edge g src dest).2.num_vertices = g.num_vertices ∧
      ∀ j : Int, 0 ≤ j → j < g.num_vertices → j ≠ src →
        (graph_add_edge g src dest).2.vtx j = g.vtx j) := by
  have hcond : (src < 0 || src ≥ g.num_vertices || dest < 0 || dest ≥ g.num_vertices) = false := by
    simp only [Bool.or_eq_false_iff, decide_eq_false_iff_not, not_lt, not_le]
    exact ⟨⟨⟨h1, lt_of_lt_of_le h2 le_rfl⟩, h3⟩, h4⟩
  constructor
  · intro hhas
    unfold graph_add_edge
    rw [hcond, hhas]
    simp
  · intro hhas
    have hsrc : src.toNat < g.vertices.length := by
      have hlen : src < (g.vertices.length : Int) := h2
      omega
    have heq : graph_add_edge g src dest =
        (SCC_SUCCESS,
         { g with
           vertices := modifyIdx g.vertices src.toNat
             (fun v => { v with edges := dest :: v.edges, out_degree := v.out_degree + 1 }),
           num_edges := g.num_edges + 1 }) := by
      unfold graph_add_edge
      rw [hcond, hhas]
      simp
    refine ⟨by rw [heq], ?_, ?_, by rw [heq], ?_, ?_⟩
    · rw [heq]
      simp only [Graph.vtx]
      rw [getD_modifyIdx_self _ _ _ _ hsrc]
    · rw [heq]
      simp only [Graph.vtx]
      rw [getD_modifyIdx_self _ _ _ _ hsrc]
    · rw [heq]
      simp [Graph.num_vertices, modifyIdx_length]
    · intro j hj0 hjn hjne
      have hne : j.toNat ≠ src.toNat := by omega
      rw [heq]
      simp only [Graph.vtx]
      rw [getD_modifyIdx_ne _ _ _ _ _ hne]

/-- Witness for C7 at a concrete input: adding the self-loop `0 → 0` to
`gW3` (where it is absent) succeeds and bumps the counters; adding the
existing edge `0 → 1` is rejected with `EdgeExists` and no change. -/
theorem c7_witness :
    graph_add_edge gW3 0 1 = (SCC_ERROR_EDGE_EXISTS, gW3) ∧
    (graph_add_edge gW3 0 0).1 = SCC_SUCCESS ∧
    ((graph_add_edge gW3 0 0).2.vtx 0).edges = 0 :: (gW3.vtx 0).edges ∧
    (graph_add_edge gW3 0 0).2.num_edges = gW3.num_edges + 1 := by
  have h := c7_graph_add_edge_contract gW3 0 1 (by decide) (by decide) (by decide) (by decide)
  have h' := c7_graph_add_edge_contract gW3 0 0 (by decide) (by decide) (by decide) (by decide)
  have hx := h.1 (by decide)
  have hy := h'.2 (by decide)
  exact ⟨hx, hy.1, hy.2.1, hy.2.2.2.1⟩

/-- C4 (counterexample).  The claim — `graph_is_valid` succeeds iff all five
§3 invariants hold — is false: the duplicate-edge invariant (5) is not
checked.  `gDup` stores the edge `0 → 1` twice with consistent counters;
`graph_is_valid` accepts it. -/
theorem c4_counterexample_duplicate_edge_accepted :
    graph_is_valid gDup = true ∧ ¬ noDuplicateEdges gDup := by
  refine ⟨by decide, by decide⟩

/-- Characterisation of the `graph_is_valid` loop. -/
theorem isValidGo_iff (nv ne : Int) (l : List Vertex) : ∀ i cnt : Int,
    isValidGo nv ne i cnt l = true ↔
      (idsFrom i l ∧
       (∀ v ∈ l, ∀ d ∈ v.edges, 0 ≤ d ∧ d < nv) ∧
       (∀ v ∈ l, v.out_degree = (v.edges.length : Int)) ∧
       ne = cnt + (l.map (fun v => (v.edges.length : Int))).sum) := by
  induction l with
  | nil =>
      intro i cnt
      simp only [isValidGo, beq_iff_eq, idsFrom, List.not_mem_nil, List.map_nil,
        List.sum_nil, true_and, false_implies, implies_true]
      omega
  | cons v rest ih =>
      intro i cnt
      simp only [isValidGo, Bool.and_eq_true, beq_iff_eq, List.all_eq_true,
        Bool.not_eq_true', decide_eq_false_iff_not, decide_eq_true_eq, not_lt, idsFrom]
      rw [ih (i + 1) (cnt + (v.edges.length : Int))]
      constructor
      · rintro ⟨⟨⟨hid, hrange⟩, hdeg⟩, hids, hrng, hdg, hsum⟩
        refine ⟨⟨hid, hids⟩, ?_, ?_, ?_⟩
        · intro w hw
          rcases List.mem_cons.mp hw with rfl | h
          · exact hrange
          · exact hrng w h
        · intro w hw
          rcases List.mem_cons.mp hw with rfl | h
          · exact hdeg
          · exact hdg w h
        · simp only [List.map_cons, List.sum_cons]; omega
      · rintro ⟨⟨hid, hids⟩, hrng, hdg, hsum⟩
        refine ⟨⟨⟨hid, ?_⟩, hdg v (List.mem_cons_self v rest)⟩, hids, ?_, ?_, ?_⟩
        · intro d hd
          exact hrng v (List.mem_cons_self v rest) d hd
        · intro w hw; exact hrng w (List.mem_cons_of_mem v hw)
        · intro w hw; exact hdg w (List.mem_cons_of_mem v hw)
        · simp only [List.map_cons, List.sum_cons] at hsum; omega

/-- C4 (amended).  What `graph_is_valid` actually decides: success iff
invariants (1)–(4) of §3 hold and `num_vertices ≤ capacity`.  The
duplicate-edge invariant (5) is NOT among the checks (see the
counterexample above). -/
theorem c4_amended_graph_is_valid_iff (g : Graph) :
    graph_is_valid g = true ↔
      (edgesInRange g ∧ degreesConsistent g ∧ edgeCountConsistent g ∧
       idsConsistent g ∧ g.num_vertices ≤ g.capacity) := by
  have hmap : ∀ (h : degreesConsistent g),
      (g.vertices.map (fun v => v.out_degree)) =
      g.vertices.map (fun v => (v.edges.length : Int)) := by
    intro h
    exact List.map_congr_left h
  have hpos : 0 ≤ (g.vertices.map (fun v => (v.edges.length : Int))).sum := by
    apply List.sum_nonneg
    intro x hx
    rw [List.mem_map] at hx
    obtain ⟨v, -, rfl⟩ := hx
    exact Int.natCast_nonneg _
  unfold graph_is_valid
  by_cases h1 : g.num_edges < 0
  · rw [if_pos h1]
    constructor
    · intro h; cases h
    · rintro ⟨-, hdeg, hcnt, -, -⟩
      rw [hcnt, hmap hdeg] at h1
      omega
  · rw [if_neg h1]
    by_cases h2 : g.num_vertices > g.capacity
    · rw [if_pos h2]
      constructor
      · intro h; cases h
      · rintro ⟨-, -, -, -, hc⟩; omega
    · rw [if_neg h2]
      rw [isValidGo_iff]
      unfold edgesInRange degreesConsistent edgeCountConsistent idsConsistent
      constructor
      · rintro ⟨hids, hrng, hdg, hsum⟩
        refine ⟨hrng, hdg, ?_, hids, by omega⟩
        rw [hmap hdg]
        omega
      · rintro ⟨hrng, hdg, hcnt, hids, -⟩
        refine ⟨hids, hrng, hdg, ?_⟩
        rw [hmap hdg] at hcnt
        omega

/-- C5 (counterexample).  The claim — removing a nonexistent edge returns a
distinguishable `EdgeNotFound` value, distinct from the other error kinds
such as `InvalidParameter` — is false: `scc_error_t` has no edge-not-found
member at all, and `graph_remove_edge` returns
`SCC_ERROR_INVALID_PARAMETER` (-5) itself when the scan finds no edge
(graph.c:166). -/
theorem c5_counterexample_edge_not_found_is_invalid_parameter :
    graph_remove_edge gNoEdge 0 1 = (SCC_ERROR_INVALID_PARAMETER, gNoEdge) ∧
    SCC_ERROR_INVALID_PARAMETER = -5 ∧
    (graph_remove_edge gNoEdge 0 1).2.num_edges = gNoEdge.num_edges := by
  refine ⟨by decide, by decide, by decide⟩

/-- C5 (amended).  What `graph_remove_edge` actually guarantees on valid
indices: when the edge is absent it returns `SCC_ERROR_INVALID_PARAMETER`
(the reused InvalidParameter tag — there is no dedicated EdgeNotFound
value) with the graph, in particular `num_edges`, unchanged; when the edge
is present it unlinks exactly the first matching node (the list becomes
`erase dest`, one element shorter) and decrements `out_degree[src]` and
`num_edges`, leaving every other vertex alone. -/
theorem c5_amended_graph_remove_edge_contract (g : Graph) (src dest : Int)
    (h1 : 0 ≤ src) (h2 : src < g.num_vertices)
    (h3 : 0 ≤ dest) (h4 : dest < g.num_vertices) :
    (graph_has_edge g src dest = false →
      graph_remove_edge g src dest = (SCC_ERROR_INVALID_PARAMETER, g)) ∧
    (graph_has_edge g src dest = true →
      (graph_remove_edge g src dest).1 = SCC_SUCCESS ∧
      ((graph_remove_edge g src dest).2.vtx src).edges = (g.vtx src).edges.erase dest ∧
      ((graph_remove_edge g src dest).2.vtx src).edges.length + 1 =
        (g.vtx src).edges.length ∧
      ((graph_remove_edge g src dest).2.vtx src).out_degree =
        (g.vtx src).out_degree - 1 ∧
      (graph_remove_edge g src dest).2.num_edges = g.num_edges - 1 ∧
      (graph_remove_edge g src dest).2.num_vertices = g.num_vertices ∧
      ∀ j : Int, 0 ≤ j → j < g.num_vertices → j ≠ src →
        (graph_remove_edge g src dest).2.vtx j = g.vtx j) := by
  have hcond : (src < 0 || src ≥ g.num_vertices || dest < 0 || dest ≥ g.num_vertices) = false := by
    simp only [Bool.or_eq_false_iff, decide_eq_false_iff_not, not_lt, not_le]
    exact ⟨⟨⟨h1, h2⟩, h3⟩, h4⟩
  have hmem : graph_has_edge g src dest = true ↔ dest ∈ (g.vtx src).edges := by
    unfold graph_has_edge
    rw [hcond]
    simp
  have hsrc : src.toNat < g.vertices.length := by
    have hlen : src < (g.vertices.length : Int) := h2
    omega
  constructor
  · intro hhas
    have hnone : removeFirstEdge (g.vtx src).edges dest = none := by
      rw [removeFirstEdge_eq_none_iff]
      intro hmem'
      rw [hmem.mpr hmem'] at hhas
      cases hhas
    unfold graph_remove_edge
    rw [hcond, hnone]
    rfl
  · intro hhas
    have hd : dest ∈ (g.vtx src).edges := hmem.mp hhas
    obtain ⟨l', hl'⟩ : ∃ l', removeFirstEdge (g.vtx src).edges dest = some l' := by
      cases hr : removeFirstEdge (g.vtx src).edges dest with
      | none => exact absurd hd (removeFirstEdge_eq_none_iff _ _ |>.mp hr)
      | some l' => exact ⟨l', rfl⟩
    have hl'e : l' = (g.vtx src).edges.erase dest := removeFirstEdge_eq_some _ _ _ hl'
    have heq : graph_remove_edge g src dest =
        (SCC_SUCCESS,
         { g with
           vertices := modifyIdx g.vertices src.toNat
             (fun v => { v with edges := l', out_degree := v.out_degree - 1 }),
           num_edges := g.num_edges - 1 }) := by
      unfold graph_remove_edge
      rw [hcond, hl']
      rfl
    refine ⟨by rw [heq], ?_, ?_, ?_, by rw [heq], ?_, ?_⟩
    · rw [heq]
      simp only [Graph.vtx] at hl'e ⊢
      rw [getD_modifyIdx_self _ _ _ _ hsrc]
      exact hl'e
    · rw [heq]
      simp only [Graph.vtx] at hd hl'e ⊢
      rw [getD_modifyIdx_self _ _ _ _ hsrc]
      show l'.length + 1 = _
      rw [hl'e, List.length_erase_of_mem hd]
      have hne0 : (g.vertices.getD src.toNat ⟨0, [], 0⟩).edges.length ≠ 0 := by
        intro h0
        rw [List.length_eq_zero] at h0
        rw [h0] at hd
        cases hd
      omega
    · rw [heq]
      simp only [Graph.vtx]
      rw [getD_modifyIdx_self _ _ _ _ hsrc]
    · rw [heq]
      simp [Graph.num_vertices, modifyIdx_length]
    · intro j hj0 hjn hjne
      have hne : j.toNat ≠ src.toNat := by omega
      rw [heq]
      simp only [Graph.vtx]
      rw [getD_modifyIdx_ne _ _ _ _ _ hne]

/-- Witness for C5 at a concrete input: removing the absent edge `1 → 0`
from `gW3` yields the reused InvalidParameter tag with `num_edges`
untouched; removing the present edge `0 → 1` succeeds and decrements. -/
theorem c5_amended_witness :
    graph_remove_edge gW3 1 0 = (SCC_ERROR_INVALID_PARAMETER, gW3) ∧
    (graph_remove_edge gW3 0 1).1 = SCC_SUCCESS ∧
    (graph_remove_edge gW3 0 1).2.num_edges = gW3.num_edges - 1 := by
  have h := c5_amended_graph_remove_edge_contract gW3 1 0
    (by decide) (by decide) (by decide) (by decide)
  have h' := c5_amended_graph_remove_edge_contract gW3 0 1
    (by decide) (by decide) (by decide) (by decide)
  exact ⟨h.1 (by decide), (h'.2 (by decide)).1, (h'.2 (by decide)).2.2.2.2.1⟩

/-- C6 (counterexample).  The claim — `scc_get_vertex_component` returns a
negative error tag for EVERY out-of-range vertex — is false for vertices at
or above the covered range: the code only checks `vertex < 0`
(memory.c:265) and otherwise reads `vertex_to_component[vertex]` with no
upper bound check, so for `v = 2` on a two-vertex result the read is out of
bounds and no error value is returned (while negative vertices do get
`-1`). -/
theorem c6_counterexample_no_upper_range_check :
    scc_get_vertex_component rEx 2 = none ∧
    (scc_get_vertex_component rEx 2).isSome = false ∧
    scc_get_vertex_component rEx (-1) = some (-1) := by
  refine ⟨by decide, by decide, by decide⟩

/-- C6 (amended).  What `scc_get_vertex_component` actually does: `-1` (a
negative error tag, with `SCC_ERROR_INVALID_VERTEX` recorded) for negative
`v`; the stored `vertex_to_component[v]` entry for `v` within the array;
and an unchecked out-of-bounds read — no error return — for `v` at or
beyond the array, because the code performs no upper range check. -/
theorem c6_amended_vertex_component_contract (r : SCCResult) (v : Int) :
    (v < 0 → scc_get_vertex_component r v = some (-1)) ∧
    (0 ≤ v → v.toNat < r.vertexToComponent.length →
      scc_get_vertex_component r v = r.vertexToComponent.getD v.toNat none) ∧
    (0 ≤ v → r.vertexToComponent.length ≤ v.toNat →
      scc_get_vertex_component r v = none) := by
  refine ⟨?_, ?_, ?_⟩
  · intro hv
    unfold scc_get_vertex_component
    rw [if_pos hv]
  · intro hv hlt
    unfold scc_get_vertex_component
    rw [if_neg (by omega)]
    obtain ⟨a, ha⟩ : ∃ a, r.vertexToComponent.get? v.toNat = some a := by
      cases hget : r.vertexToComponent.get? v.toNat with
      | none =>
          have hlen := List.get?_eq_none.mp hget
          omega
      | some a => exact ⟨a, rfl⟩
    have hD : r.vertexToComponent.getD v.toNat none = a := by
      unfold List.getD
      simp [List.get?_eq_getElem?] at ha
      simp [ha]
    rw [ha, hD]
    cases a with
    | none => rfl
    | some c => rfl
  · intro hv hge
    unfold scc_get_vertex_component
    rw [if_neg (by omega), List.get?_eq_none.mpr hge]

/-- Witness for C6 (amended) at concrete inputs, exercising all three
branches on the two-vertex result `rEx`. -/
theorem c6_amended_witness :
    scc_get_vertex_component rEx (-7) = some (-1) ∧
    scc_get_vertex_component rEx 1 = some 0 ∧
    scc_get_vertex_component rEx 5 = none := by
  have ha := c6_amended_vertex_component_contract rEx (-7)
  have hb := c6_amended_vertex_component_contract rEx 1
  have hc := c6_amended_vertex_component_contract rEx 5
  refine ⟨ha.1 (by decide), ?_, hc.2.2 (by decide) (by decide)⟩
  rw [hb.2.1 (by decide) (by decide)]
  decide

/-- C8.  `scc_recommend_algorithm` is a total function (it is a Lean
function) of `(num_vertices, num_edges)` only — two graphs agreeing on the
two counters get the same recommendation — and follows the claimed case
analysis: Tarjan for `num_vertices == 0`, Tarjan for `num_vertices < 1000`,
Kosaraju for density `num_edges / num_vertices²` above `0.1`, Tarjan
otherwise.  (The C computes the density in `double`; the model states the
comparison in exact rational arithmetic.) -/
theorem c8_recommend_algorithm_heuristic (g g' : Graph) :
    (g.num_vertices = g'.num_vertices → g.num_edges = g'.num_edges →
      scc_recommend_algorithm g = scc_recommend_algorithm g') ∧
    (g.num_vertices = 0 → scc_recommend_algorithm g = AlgChoice.tarjan) ∧
    (g.num_vertices < 1000 → scc_recommend_algorithm g = AlgChoice.tarjan) ∧
    (1000 ≤ g.num_vertices →
      (g.num_edges : ℚ) / ((g.num_vertices : ℚ) * (g.num_vertices : ℚ)) > 1 / 10 →
      scc_recommend_algorithm g = AlgChoice.kosaraju) ∧
    (1000 ≤ g.num_vertices →
      ¬ ((g.num_edges : ℚ) / ((g.num_vertices : ℚ) * (g.num_vertices : ℚ)) > 1 / 10) →
      scc_recommend_algorithm g = AlgChoice.tarjan) := by
  refine ⟨?_, ?_, ?_, ?_, ?_⟩
  · intro hnv hne
    unfold scc_recommend_algorithm
    rw [hnv, hne]
  · intro h0
    unfold scc_recommend_algorithm
    rw [if_pos h0]
  · intro hlt
    unfold scc_recommend_algorithm
    by_cases h0 : g.num_vertices = 0
    · rw [if_pos h0]
    · rw [if_neg h0, if_pos hlt]
  · intro hge hden
    unfold scc_recommend_algorithm
    rw [if_neg (by omega), if_neg (by omega), if_pos hden]
  · intro hge hden
    unfold scc_recommend_algorithm
    rw [if_neg (by omega), if_neg (by omega), if_neg hden]

/-- Witness for C8 at concrete inputs: 1000 vertices with 200000 edges
(density 0.2) get Kosaraju; the one-vertex graph gets Tarjan; and any two
graphs sharing the counters agree. -/
theorem c8_witness :
    scc_recommend_algorithm gBig = AlgChoice.kosaraju ∧
    scc_recommend_algorithm gOne = AlgChoice.tarjan := by
  have h := c8_recommend_algorithm_heuristic gBig gBig
  have h' := c8_recommend_algorithm_heuristic gOne gOne
  have h1000 : gBig.num_vertices = 1000 := by
    show ((List.replicate 1000 (⟨0, [], 0⟩ : Vertex)).length : Int) = 1000
    rw [List.length_replicate]
    norm_num
  have hedges : gBig.num_edges = 200000 := rfl
  refine ⟨h.2.2.2.1 (by rw [h1000]) ?_, h'.2.2.1 (by decide)⟩
  rw [h1000, hedges]
  norm_num

/-! Helper lemmas towards the transpose involution (C9). -/

theorem mem_iff_getD {α : Type} (l : List α) (d : α) (w : α) :
    w ∈ l ↔ ∃ j : Nat, j < l.length ∧ l.getD j d = w := by
  constructor
  · intro h
    obtain ⟨⟨j, hj⟩, hget⟩ := List.mem_iff_get.mp h
    refine ⟨j, hj, ?_⟩
    rw [List.getD_eq_getElem l d hj]
    simpa using hget
  · rintro ⟨j, hj, rfl⟩
    rw [List.getD_eq_getElem l d hj]
    exact List.getElem_mem hj

theorem getD_mem_of_lt {α : Type} (l : List α) (d : α) (j : Nat) (hj : j < l.length) :
    l.getD j d ∈ l := by
  rw [List.getD_eq_getElem l d hj]
  exact List.getElem_mem hj

/-- `graph_has_edge` spelt out: both indices in range and the destination on
the source's adjacency list. -/
theorem graph_has_edge_iff (g : Graph) (u v : Int) :
    graph_has_edge g u v = true ↔
      (0 ≤ u ∧ u < g.num_vertices ∧ 0 ≤ v ∧ v < g.num_vertices ∧
       v ∈ (g.vtx u).edges) := by
  unfold graph_has_edge
  by_cases h : (u < 0 || u ≥ g.num_vertices || v < 0 || v ≥ g.num_vertices) = true
  · rw [if_pos h]
    simp only [Bool.or_eq_true, decide_eq_true_eq] at h
    constructor
    · intro hh; cases hh
    · rintro ⟨hb1, hb2, hb3, hb4, -⟩
      rcases h with ((hh | hh) | hh) | hh <;> omega
  · rw [if_neg h]
    simp only [Bool.or_eq_true, decide_eq_true_eq, not_or, not_lt, not_le] at h
    obtain ⟨⟨⟨hb1, hb2⟩, hb3⟩, hb4⟩ := h
    constructor
    · intro hm
      exact ⟨hb1, hb2, hb3, hb4, by simpa using hm⟩
    · rintro ⟨-, -, -, -, hm⟩
      simpa using hm

theorem mem_edgePairsGo (u v : Int) (l : List Vertex) : ∀ i : Int,
    ((u, v) ∈ edgePairsGo i l ↔
      ∃ j : Nat, j < l.length ∧ u = i + (j : Int) ∧
        v ∈ (l.getD j ⟨0, [], 0⟩).edges) := by
  induction l with
  | nil => intro i; simp [edgePairsGo]
  | cons w rest ih =>
      intro i
      simp only [edgePairsGo, List.mem_append, List.mem_map, ih (i + 1),
        List.length_cons]
      constructor
      · rintro (⟨d, hd, heq⟩ | ⟨j, hj, hu, hv⟩)
        · obtain ⟨rfl, rfl⟩ := Prod.mk.injEq .. |>.mp heq
          exact ⟨0, by omega, by simp, by simpa using hd⟩
        · refine ⟨j + 1, by omega, by push_cast at hu ⊢; omega, ?_⟩
          simpa [List.getD_cons_succ] using hv
      · rintro ⟨j, hj, hu, hv⟩
        cases j with
        | zero =>
            left
            refine ⟨v, by simpa using hv, ?_⟩
            have : u = i := by simpa using hu
            rw [this]
        | succ k =>
            right
            refine ⟨k, by omega, by push_cast at hu ⊢; omega, ?_⟩
            simpa [List.getD_cons_succ] using hv

theorem edgePairsGo_nodup (l : List Vertex) (hl : ∀ v ∈ l, v.edges.Nodup) :
    ∀ i : Int, (edgePairsGo i l).Nodup := by
  induction l with
  | nil => intro i; simp [edgePairsGo]
  | cons w rest ih =>
      intro i
      apply List.Nodup.append
      · apply List.Nodup.map _ (hl w (List.mem_cons_self w rest))
        intro a b hab
        simpa using hab
      · exact ih (fun v hv => hl v (List.mem_cons_of_mem w hv)) (i + 1)
      · intro p hp hp'
        obtain ⟨d, -, rfl⟩ := List.mem_map.mp hp
        obtain ⟨j, -, hu, -⟩ := (mem_edgePairsGo i d rest (i + 1)).mp hp'
        omega

theorem graph_add_vertex_vertices (g : Graph) :
    (graph_add_vertex g).2.vertices =
      g.vertices ++ [⟨(g.vertices.length : Int), [], 0⟩] := by
  unfold graph_add_vertex
  by_cases hc : ((g.vertices.length : Int) ≥ g.capacity)
  · simp [hc]
  · simp [hc]

theorem graph_add_vertex_num_edges (g : Graph) :
    (graph_add_vertex g).2.num_edges = g.num_edges := by
  unfold graph_add_vertex
  by_cases hc : ((g.vertices.length : Int) ≥ g.capacity)
  · simp [hc]
  · simp [hc]

theorem graph_add_vertex_capacity_nonneg (g : Graph) (h : 0 ≤ g.capacity) :
    0 ≤ (graph_add_vertex g).2.capacity := by
  unfold graph_add_vertex
  by_cases hc : ((g.vertices.length : Int) ≥ g.capacity)
  · simp [hc]; omega
  · simp [hc]; omega

theorem addVertices_spec : ∀ (k : Nat) (g : Graph),
    (addVertices g k).vertices.length = g.vertices.length + k ∧
    (∀ w ∈ (addVertices g k).vertices, w ∈ g.vertices ∨ w.edges = []) ∧
    (addVertices g k).num_edges = g.num_edges ∧
    (0 ≤ g.capacity → 0 ≤ (addVertices g k).capacity) := by
  intro k
  induction k with
  | zero =>
      intro g
      exact ⟨rfl, fun w hw => Or.inl hw, rfl, fun h => h⟩
  | succ n ih =>
      intro g
      have hstep : addVertices g (n + 1) = addVertices (graph_add_vertex g).2 n := rfl
      obtain ⟨h1, h2, h3, h4⟩ := ih (graph_add_vertex g).2
      have hlen1 : (graph_add_vertex g).2.vertices.length = g.vertices.length + 1 := by
        rw [graph_add_vertex_vertices]
        simp
      refine ⟨?_, ?_, ?_, ?_⟩
      · rw [hstep, h1, hlen1]
        omega
      · intro w hw
        rw [hstep] at hw
        rcases h2 w hw with hmem | he
        · rw [graph_add_vertex_vertices] at hmem
          rcases List.mem_append.mp hmem with hm | hm
          · exact Or.inl hm
          · right
            rcases List.mem_singleton.mp hm with rfl
            rfl
        · exact Or.inr he
      · rw [hstep, h3, graph_add_vertex_num_edges]
      · intro hc
        rw [hstep]
        exact h4 (graph_add_vertex_capacity_nonneg g hc)

/-- Effect of a successful `graph_add_edge` insertion on the structure and
on the edge relation. -/
theorem graph_add_edge_new (t : Graph) (a b : Int)
    (ha0 : 0 ≤ a) (ha : a < t.num_vertices)
    (hb0 : 0 ≤ b) (hb : b < t.num_vertices)
    (hnew : graph_has_edge t a b = false) :
    (graph_add_edge t a b).1 = SCC_SUCCESS ∧
    (graph_add_edge t a b).2.vertices.length = t.vertices.length ∧
    (graph_add_edge t a b).2.capacity = t.capacity ∧
    ((∀ w ∈ t.vertices, w.edges.Nodup) →
      ∀ w ∈ (graph_add_edge t a b).2.vertices, w.edges.Nodup) ∧
    ((∀ w ∈ t.vertices, ∀ d ∈ w.edges, 0 ≤ d ∧ d < t.num_vertices) →
      ∀ w ∈ (graph_add_edge t a b).2.vertices, ∀ d ∈ w.edges,
        0 ≤ d ∧ d < t.num_vertices) ∧
    (∀ u v : Int, graph_has_edge (graph_add_edge t a b).2 u v = true ↔
      (graph_has_edge t u v = true ∨ (u = a ∧ v = b))) := by
  have hcond : (a < 0 || a ≥ t.num_vertices || b < 0 || b ≥ t.num_vertices) = false := by
    simp only [Bool.or_eq_false_iff, decide_eq_false_iff_not, not_lt, not_le]
    exact ⟨⟨⟨ha0, ha⟩, hb0⟩, hb⟩
  have hsrc : a.toNat < t.vertices.length := by
    have hlen : a < (t.vertices.length : Int) := ha
    omega
  have heq : graph_add_edge t a b =
      (SCC_SUCCESS,
       { t with
         vertices := modifyIdx t.vertices a.toNat
           (fun v => { v with edges := b :: v.edges, out_degree := v.out_degree + 1 }),
         num_edges := t.num_edges + 1 }) := by
    unfold graph_add_edge
    rw [hcond, hnew]
    simp
  have hbnotmem : b ∉ (t.vtx a).edges := by
    intro hmem
    have : graph_has_edge t a b = true :=
      (graph_has_edge_iff t a b).mpr ⟨ha0, ha, hb0, hb, hmem⟩
    rw [hnew] at this
    cases this
  have hvtxa : ((graph_add_edge t a b).2.vtx a) =
      ⟨(t.vtx a).id, b :: (t.vtx a).edges, (t.vtx a).out_degree + 1⟩ := by
    rw [heq]
    simp only [Graph.vtx]
    rw [getD_modifyIdx_self _ _ _ _ hsrc]
  have hvtxo : ∀ j : Int, j.toNat ≠ a.toNat →
      ((graph_add_edge t a b).2.vtx j) = t.vtx j := by
    intro j hj
    rw [heq]
    simp only [Graph.vtx]
    rw [getD_modifyIdx_ne _ _ _ _ _ hj]
  have hlen : (graph_add_edge t a b).2.vertices.length = t.vertices.length := by
    rw [heq]
    simp [modifyIdx_length]
  have hnv : (graph_add_edge t a b).2.num_vertices = t.num_vertices := by
    simp [Graph.num_vertices, hlen]
  have hmemnew : ∀ w ∈ (graph_add_edge t a b).2.vertices,
      w ∈ t.vertices ∨
        w = (⟨(t.vtx a).id, b :: (t.vtx a).edges, (t.vtx a).out_degree + 1⟩ : Vertex) := by
    intro w hw
    obtain ⟨j, hj, hwj⟩ := (mem_iff_getD _ ⟨0, [], 0⟩ w).mp hw
    rw [hlen] at hj
    by_cases hja : j = a.toNat
    · right
      rw [← hwj, hja]
      have := hvtxa
      simp only [Graph.vtx] at this
      rw [heq] at this ⊢
      exact this
    · left
      rw [← hwj]
      rw [heq]
      simp only
      rw [getD_modifyIdx_ne _ _ _ _ _ hja]
      exact getD_mem_of_lt _ _ _ hj
  refine ⟨by rw [heq], hlen, by rw [heq], ?_, ?_, ?_⟩
  · intro hnd w hw
    rcases hmemnew w hw with h | rfl
    · exact hnd w h
    · refine List.nodup_cons.mpr ⟨hbnotmem, ?_⟩
      exact hnd _ (getD_mem_of_lt _ _ _ hsrc)
  · intro hrng w hw d hd
    rcases hmemnew w hw with h | rfl
    · exact hrng w h d hd
    · rcases List.mem_cons.mp hd with rfl | hd'
      · exact ⟨hb0, hb⟩
      · exact hrng _ (getD_mem_of_lt _ _ _ hsrc) d hd'
  · intro u v
    rw [graph_has_edge_iff, graph_has_edge_iff, hnv]
    constructor
    · rintro ⟨h1, h2, h3, h4, hm⟩
      by_cases hja : u.toNat = a.toNat
      · have hua : u = a := by omega
        subst hua
        rw [hvtxa] at hm
        rcases List.mem_cons.mp hm with rfl | hm'
        · right; exact ⟨rfl, rfl⟩
        · left; exact ⟨h1, h2, h3, h4, hm'⟩
      · rw [hvtxo u hja] at hm
        left; exact ⟨h1, h2, h3, h4, hm⟩
    · rintro (⟨h1, h2, h3, h4, hm⟩ | ⟨rfl, rfl⟩)
      · refine ⟨h1, h2, h3, h4, ?_⟩
        by_cases hja : u.toNat = a.toNat
        · have hua : u = a := by omega
          subst hua
          rw [hvtxa]
          exact List.mem_cons_of_mem _ hm
        · rw [hvtxo u hja]
          exact hm
      · refine ⟨ha0, ha, hb0, hb, ?_⟩
        rw [hvtxa]
        exact List.mem_cons_self _ _

/-- The edge-insertion loop of `graph_transpose`: starting from a graph with
`n` vertices, duplicate-free adjacency lists, and none of the pairs already
present, inserting a duplicate-free list of in-range pairs succeeds and the
resulting edge relation is the old one plus exactly those pairs. -/
theorem addAll_spec (n : Nat) : ∀ (ps : List (Int × Int)) (t : Graph),
    t.vertices.length = n →
    (∀ p ∈ ps, 0 ≤ p.1 ∧ p.1 < (n : Int) ∧ 0 ≤ p.2 ∧ p.2 < (n : Int)) →
    ps.Nodup →
    (∀ p ∈ ps, graph_has_edge t p.1 p.2 = false) →
    (∀ w ∈ t.vertices, w.edges.Nodup) →
    (∀ w ∈ t.vertices, ∀ d ∈ w.edges, 0 ≤ d ∧ d < (n : Int)) →
    ∃ t', addAll ps t = some t' ∧
      t'.vertices.length = n ∧
      t'.capacity = t.capacity ∧
      (∀ w ∈ t'.vertices, w.edges.Nodup) ∧
      (∀ w ∈ t'.vertices, ∀ d ∈ w.edges, 0 ≤ d ∧ d < (n : Int)) ∧
      (∀ u v : Int, graph_has_edge t' u v = true ↔
        (graph_has_edge t u v = true ∨ (u, v) ∈ ps)) := by
  intro ps
  induction ps with
  | nil =>
      intro t hlen _ _ _ hnd hrng
      exact ⟨t, rfl, hlen, rfl, hnd, hrng, by simp⟩
  | cons p ps' ih =>
      intro t hlen hbounds hnodup hnew hnd hrng
      obtain ⟨hb1, hb2, hb3, hb4⟩ := hbounds p (List.mem_cons_self p ps')
      have hnum : t.num_vertices = (n : Int) := by
        simp [Graph.num_vertices, hlen]
      have hadd := graph_add_edge_new t p.1 p.2 hb1 (by rw [hnum]; exact hb2)
        hb3 (by rw [hnum]; exact hb4) (hnew p (List.mem_cons_self p ps'))
      obtain ⟨hsucc, hlen1, hcap1, hnd1, hrng1, hiff1⟩ := hadd
      have hnum1 : (graph_add_edge t p.1 p.2).2.num_vertices = (n : Int) := by
        simp [Graph.num_vertices, hlen1, hlen]
      have hstep : addAll (p :: ps') t = addAll ps' (graph_add_edge t p.1 p.2).2 := by
        unfold addAll
        rw [List.foldlM_cons]
        unfold addEdgeChecked
        rw [if_pos hsucc]
        rfl
      have hnotin : p ∉ ps' := (List.nodup_cons.mp hnodup).1
      have hnew' : ∀ q ∈ ps', graph_has_edge (graph_add_edge t p.1 p.2).2 q.1 q.2 = false := by
        intro q hq
        rw [Bool.eq_false_iff]
        intro htrue
        rcases (hiff1 q.1 q.2).mp htrue with hh | ⟨he1, he2⟩
        · rw [hnew q (List.mem_cons_of_mem p hq)] at hh
          cases hh
        · apply hnotin
          have : q = p := Prod.ext he1 he2
          rw [← this]
          exact hq
      have hrng1' : ∀ w ∈ (graph_add_edge t p.1 p.2).2.vertices, ∀ d ∈ w.edges,
          0 ≤ d ∧ d < (n : Int) := by
        intro w hw d hd
        have := hrng1 (by rw [hnum]; exact hrng) w hw d hd
        rw [hnum] at this
        exact this
      obtain ⟨t', haddall, hlen', hcap', hnd', hrng', hiff'⟩ :=
        ih (graph_add_edge t p.1 p.2).2 (by rw [hlen1, hlen])
          (fun q hq => hbounds q (List.mem_cons_of_mem p hq))
          (List.nodup_cons.mp hnodup).2
          hnew'
          (hnd1 hnd)
          hrng1'
      refine ⟨t', by rw [hstep]; exact haddall, hlen', by rw [hcap', hcap1],
        hnd', hrng', ?_⟩
      intro u v
      rw [hiff' u v, hiff1 u v]
      constructor
      · rintro ((hh | ⟨rfl, rfl⟩) | hh)
        · exact Or.inl hh
        · exact Or.inr (List.mem_cons_self p ps')
        · exact Or.inr (List.mem_cons_of_mem p hh)
      · rintro (hh | hh)
        · exact Or.inl (Or.inl hh)
        · rcases List.mem_cons.mp hh with rfl | hq
          · exact Or.inl (Or.inr ⟨rfl, rfl⟩)
          · exact Or.inr hq

theorem mem_edgePairs_iff (g : Graph) (hrange : edgesInRange g) (u v : Int) :
    ((u, v) ∈ edgePairs g ↔ graph_has_edge g u v = true) := by
  rw [graph_has_edge_iff]
  unfold edgePairs
  rw [mem_edgePairsGo]
  constructor
  · rintro ⟨j, hj, hu, hv⟩
    have hmem : g.vertices.getD j ⟨0, [], 0⟩ ∈ g.vertices := getD_mem_of_lt _ _ _ hj
    have hd := hrange _ hmem v hv
    refine ⟨by omega, ?_, hd.1, hd.2, ?_⟩
    · have hlt : u < (g.vertices.length : Int) := by omega
      simpa [Graph.num_vertices] using hlt
    · simp only [Graph.vtx]
      have hj' : u.toNat = j := by omega
      rw [hj']
      exact hv
  · rintro ⟨hb1, hb2, -, -, hm⟩
    have h2' : u.toNat < g.vertices.length := by
      simp only [Graph.num_vertices] at hb2
      omega
    refine ⟨u.toNat, h2', by omega, ?_⟩
    simpa [Graph.vtx] using hm

/-- `graph_transpose` on a graph with in-range, duplicate-free adjacency
lists succeeds, keeps the vertex count, produces in-range duplicate-free
lists, and reverses the edge relation. -/
theorem transpose_spec (g : Graph) (hcap : 0 ≤ g.capacity)
    (h1 : edgesInRange g) (h2 : noDuplicateEdges g) :
    ∃ t, graph_transpose g = some t ∧
      t.vertices.length = g.vertices.length ∧
      0 ≤ t.capacity ∧
      noDuplicateEdges t ∧
      edgesInRange t ∧
      (∀ u v : Int, graph_has_edge t u v = true ↔ graph_has_edge g v u = true) := by
  have hcreate : graph_create g.capacity =
      some ⟨[], 0, if g.capacity = 0 then 16 else g.capacity⟩ := by
    unfold graph_create
    rw [if_neg (by omega)]
  obtain ⟨hblen, hbmem, hbne, hbcap⟩ :=
    addVertices_spec g.vertices.length
      ⟨[], 0, if g.capacity = 0 then 16 else g.capacity⟩
  set base : Graph :=
    addVertices ⟨[], 0, if g.capacity = 0 then 16 else g.capacity⟩
      g.vertices.length with hbase
  have hbempty : ∀ w ∈ base.vertices, w.edges = [] := by
    intro w hw
    rcases hbmem w hw with hmem | he
    · cases hmem
    · exact he
  have hblen' : base.vertices.length = g.vertices.length := by
    simpa using hblen
  have hbcap' : 0 ≤ base.capacity := by
    apply hbcap
    by_cases hc0 : g.capacity = 0
    · simp [hc0]
    · simp [hc0]; omega
  have hbnoedge : ∀ u v : Int, graph_has_edge base u v = false := by
    intro u v
    rw [Bool.eq_false_iff]
    intro htrue
    obtain ⟨e1, e2, -, -, hm⟩ := (graph_has_edge_iff base u v).mp htrue
    have hmem : base.vertices.getD u.toNat ⟨0, [], 0⟩ ∈ base.vertices := by
      apply getD_mem_of_lt
      simp only [Graph.num_vertices] at e2
      omega
    have hempty := hbempty _ hmem
    simp only [Graph.vtx] at hm
    rw [hempty] at hm
    cases hm
  have hbnd : ∀ w ∈ base.vertices, w.edges.Nodup := by
    intro w hw
    rw [hbempty w hw]
    exact List.nodup_nil
  have hbrng : ∀ w ∈ base.vertices, ∀ d ∈ w.edges,
      0 ≤ d ∧ d < (g.vertices.length : Int) := by
    intro w hw d hd
    rw [hbempty w hw] at hd
    cases hd
  set ps := (edgePairs g).map (fun p => (p.2, p.1)) with hps
  have hpsbounds : ∀ p ∈ ps, 0 ≤ p.1 ∧ p.1 < (g.vertices.length : Int) ∧
      0 ≤ p.2 ∧ p.2 < (g.vertices.length : Int) := by
    intro p hp
    obtain ⟨q, hq, rfl⟩ := List.mem_map.mp hp
    obtain ⟨j, hj, hu, hv⟩ := (mem_edgePairsGo q.1 q.2 g.vertices 0).mp hq
    have hmem : g.vertices.getD j ⟨0, [], 0⟩ ∈ g.vertices := getD_mem_of_lt _ _ _ hj
    have hd := h1 _ hmem q.2 hv
    simp only [Graph.num_vertices] at hd
    exact ⟨hd.1, hd.2, by omega, by omega⟩
  have hpsnodup : ps.Nodup := by
    apply List.Nodup.map
    · intro a b hab
      simp only [Prod.mk.injEq] at hab
      exact Prod.ext hab.2 hab.1
    · exact edgePairsGo_nodup g.vertices h2 0
  have hpsnew : ∀ p ∈ ps, graph_has_edge base p.1 p.2 = false :=
    fun p _ => hbnoedge p.1 p.2
  obtain ⟨t, haddall, hlen', hcap', hnd', hrng', hiff'⟩ :=
    addAll_spec g.vertices.length ps base hblen' hpsbounds hpsnodup hpsnew hbnd hbrng
  have hnumt : t.num_vertices = (g.vertices.length : Int) := by
    simp [Graph.num_vertices, hlen']
  refine ⟨t, ?_, hlen', by rw [hcap']; exact hbcap', hnd', ?_, ?_⟩
  · unfold graph_transpose
    rw [hcreate]
    exact haddall
  · intro w hw d hd
    have hb := hrng' w hw d hd
    rw [hnumt]
    exact hb
  · intro u v
    rw [hiff' u v]
    constructor
    · rintro (hh | hh)
      · rw [hbnoedge u v] at hh
        cases hh
      · obtain ⟨q, hq, heq⟩ := List.mem_map.mp hh
        simp only [Prod.mk.injEq] at heq
        have hqe : q = (v, u) := Prod.ext heq.2 heq.1
        rw [hqe] at hq
        exact (mem_edgePairs_iff g h1 v u).mp hq
    · intro hh
      right
      exact List.mem_map.mpr ⟨(v, u), (mem_edgePairs_iff g h1 v u).mpr hh, rfl⟩

/-- C9.  `graph_transpose` keeps the vertex count and reverses every edge
(one insertion per source edge, which all succeed on an invariant-satisfying
graph), and transposing twice is edge-set-equal to the original: for every
graph satisfying the §3 invariants used here (destinations in range, no
duplicate edges, `num_vertices ≤ capacity` giving a legal create capacity),
both transposes succeed and `has_edge (transpose (transpose G)) u v =
has_edge G u v` for all pairs, with `has_edge (transpose G) u v =
has_edge G v u`. -/
theorem c9_transpose_involution (g : Graph)
    (hcap : 0 ≤ g.capacity) (h1 : edgesInRange g) (h2 : noDuplicateEdges g) :
    ∃ t tt, graph_transpose g = some t ∧ graph_transpose t = some tt ∧
      t.num_vertices = g.num_vertices ∧ tt.num_vertices = g.num_vertices ∧
      (∀ u v : Int, graph_has_edge t u v = graph_has_edge g v u) ∧
      (∀ u v : Int, graph_has_edge tt u v = graph_has_edge g u v) := by
  obtain ⟨t, ht, hlen, hcap', hnd, hrng, hiff⟩ := transpose_spec g hcap h1 h2
  obtain ⟨tt, htt, hlen', hcap'', hnd', hrng', hiff'⟩ := transpose_spec t hcap' hrng hnd
  refine ⟨t, tt, ht, htt, by simp [Graph.num_vertices, hlen],
    by simp [Graph.num_vertices, hlen', hlen], ?_, ?_⟩
  · intro u v
    have h := hiff u v
    cases hx : graph_has_edge t u v <;> cases hy : graph_has_edge g v u <;>
      simp_all
  · intro u v
    have ha := hiff' u v
    have hb := hiff v u
    cases hx : graph_has_edge tt u v <;> cases hy : graph_has_edge g u v <;>
      simp_all

/-- Witness for C9 at a concrete input (the spec's S3 graph): both
transposes succeed and the double transpose has the same edge relation,
checked here on a sample of pairs after instantiating the theorem. -/
theorem c9_witness :
    edgesInRange gW3 ∧ noDuplicateEdges gW3 ∧
    ∃ t tt, graph_transpose gW3 = some t ∧ graph_transpose t = some tt ∧
      graph_has_edge t 1 0 = true ∧ graph_has_edge tt 0 1 = true := by
  obtain ⟨t, tt, ht, htt, -, -, hiff, hiff'⟩ :=
    c9_transpose_involution gW3 (by decide) (by decide) (by decide)
  refine ⟨by decide, by decide, t, tt, ht, htt, ?_, ?_⟩
  · rw [hiff 1 0]
    decide
  · rw [hiff' 0 1]
    decide

/-! Helper lemmas towards the Tarjan stack bound (C10). -/

theorem setAt_length {α : Type} (l : List α) (i : Int) (a : α) :
    (setAt l i a).length = l.length := by
  unfold setAt
  by_cases h : i < 0
  · rw [if_pos h]
  · rw [if_neg h, modifyIdx_length]

theorem getAt_neg {α : Type} (l : List α) (i : Int) (d : α) (h : i < 0) :
    getAt l i d = d := by
  unfold getAt
  rw [if_pos h]

theorem getAt_setAt_self {α : Type} (l : List α) (i : Int) (a d : α)
    (h0 : 0 ≤ i) (hlen : i.toNat < l.length) :
    getAt (setAt l i a) i d = a := by
  unfold getAt setAt
  rw [if_neg (by omega), if_neg (by omega)]
  rw [getD_modifyIdx_self _ _ _ _ hlen]

theorem getAt_setAt_other {α : Type} (l : List α) (i j : Int) (a d : α)
    (hi : 0 ≤ i) (hne : j ≠ i) :
    getAt (setAt l i a) j d = getAt l j d := by
  unfold getAt setAt
  by_cases hj : j < 0
  · rw [if_pos hj, if_pos hj]
  · rw [if_neg hj, if_neg hj, if_neg (by omega)]
    rw [getD_modifyIdx_ne _ _ _ _ _ (by omega)]

theorem length_le_of_nodup_range (l : List Int) (n : Nat) (hnd : l.Nodup)
    (hb : ∀ w ∈ l, 0 ≤ w ∧ w < (n : Int)) : l.length ≤ n := by
  have hmapnd : (l.map Int.toNat).Nodup := by
    apply List.Nodup.map_on ?_ hnd
    intro x hx y hy hxy
    have hbx := hb x hx
    have hby := hb y hy
    omega
  have hsub : (l.map Int.toNat) ⊆ List.range n := by
    intro a ha
    obtain ⟨w, hw, rfl⟩ := List.mem_map.mp ha
    have := hb w hw
    rw [List.mem_range]
    omega
  have hle := (hmapnd.subperm hsub).length_le
  simpa using hle

theorem filter_mono_length (q q' : Nat → Bool)
    (hsub : ∀ i, q' i = true → q i = true) :
    ∀ l : List Nat, (l.filter q').length ≤ (l.filter q).length := by
  intro l
  induction l with
  | nil => simp
  | cons a t ih =>
      by_cases hq' : q' a = true
      · rw [List.filter_cons_of_pos hq', List.filter_cons_of_pos (hsub a hq')]
        simpa using ih
      · rw [List.filter_cons_of_neg (by simpa using hq')]
        by_cases hq : q a = true
        · rw [List.filter_cons_of_pos hq]
          simp only [List.length_cons]
          omega
        · rw [List.filter_cons_of_neg (by simpa using hq)]
          exact ih

theorem filter_flip_length (v : Nat) (q q' : Nat → Bool)
    (heq : ∀ i, i ≠ v → q' i = q i) (hqv : q v = true) (hq'v : q' v = false) :
    ∀ l : List Nat, l.Nodup → v ∈ l →
      (l.filter q').length + 1 = (l.filter q).length := by
  intro l
  induction l with
  | nil => intro _ h; cases h
  | cons a t ih =>
      intro hnd hv
      rcases List.mem_cons.mp hv with rfl | hvt
      · rw [List.filter_cons_of_pos hqv, List.filter_cons_of_neg (by simp [hq'v])]
        have hnv : v ∉ t := (List.nodup_cons.mp hnd).1
        have hfeq : t.filter q' = t.filter q := by
          apply List.filter_congr
          intro i hi
          exact heq i (fun hiv => hnv (hiv ▸ hi))
        rw [hfeq]
        simp
      · have hav : a ≠ v := by
          intro h
          exact (List.nodup_cons.mp hnd).1 (h ▸ hvt)
        have ht := ih (List.nodup_cons.mp hnd).2 hvt
        by_cases hq : q a = true
        · rw [List.filter_cons_of_pos hq,
            List.filter_cons_of_pos (by rw [heq a hav]; exact hq)]
          simp only [List.length_cons]
          omega
        · rw [List.filter_cons_of_neg (by rw [heq a hav]; simpa using hq),
            List.filter_cons_of_neg (by simpa using hq)]
          exact ht

theorem unvisited_le (n : Nat) (s : TState) : unvisited n s ≤ n := by
  unfold unvisited
  calc ((List.range n).filter _).length ≤ (List.range n).length :=
        List.length_filter_le _ _
    _ = n := List.length_range n

theorem unvisited_pos (n : Nat) (s : TState) (v : Int)
    (h0 : 0 ≤ v) (hn : v < (n : Int)) (hidx : getAt s.idx v 0 = -1) :
    1 ≤ unvisited n s := by
  unfold unvisited
  have hv : v.toNat ∈ (List.range n).filter
      (fun i : Nat => getAt s.idx ((i : Nat) : Int) 0 == -1) := by
    rw [List.mem_filter]
    constructor
    · rw [List.mem_range]; omega
    · have : ((v.toNat : Nat) : Int) = v := by omega
      rw [this]
      simp [hidx]
  have := List.length_pos.mpr (List.ne_nil_of_mem hv)
  omega

/-- The DFS entry (field writes + push) preserves the invariant, marks `v`
visited, never takes the doubling branch, and logs exactly one new push. -/
theorem tarjanVisit_spec (n : Nat) (v : Int) (s : TState)
    (h0 : 0 ≤ v) (hvn : v < (n : Int)) (hidx : getAt s.idx v 0 = -1)
    (hinv : TInv n s) :
    TInv n (tarjanVisit v s) ∧
    (∀ w : Int, getAt s.idx w 0 ≠ -1 → getAt (tarjanVisit v s).idx w 0 ≠ -1) ∧
    getAt (tarjanVisit v s).idx v 0 ≠ -1 ∧
    unvisited n (tarjanVisit v s) + 1 = unvisited n s ∧
    (tarjanVisit v s).fuelOut = s.fuelOut := by
  obtain ⟨hstknd, hstkm, hpund, hpum, hcap, hgrew, hmax, hci, hlen⟩ := hinv
  have hvstk : v ∉ s.stack := fun hm => (hstkm v hm).2.2 hidx
  have hvpu : v ∉ s.pushes := fun hm => (hpum v hm).2.2 hidx
  have hlenlt : s.stack.length + 1 ≤ n := by
    have h := length_le_of_nodup_range (v :: s.stack) n
      (List.nodup_cons.mpr ⟨hvstk, hstknd⟩)
      (by
        intro w hw
        rcases List.mem_cons.mp hw with rfl | hm
        · exact ⟨h0, hvn⟩
        · exact ⟨(hstkm w hm).1, (hstkm w hm).2.1⟩)
    simpa using h
  have hvt : v.toNat < s.idx.length := by omega
  have hclt : ¬ ((s.stack.length : Int) ≥ s.stackCap) := by
    rw [hcap]
    omega
  have heq : tarjanVisit v s = { s with
      idx := setAt s.idx v s.currentIndex,
      low := setAt s.low v s.currentIndex,
      currentIndex := s.currentIndex + 1,
      onStack := setAt s.onStack v true,
      stack := v :: s.stack,
      maxTop := max s.maxTop (s.stack.length + 1),
      pushes := s.pushes ++ [v] } := by
    unfold tarjanVisit tarjan_stack_push
    dsimp only
    rw [if_neg hclt, if_neg hclt]
  have hidxnew : ∀ w : Int, getAt (tarjanVisit v s).idx w 0 =
      (if w = v then s.currentIndex else getAt s.idx w 0) := by
    intro w
    rw [heq]
    by_cases hw : w = v
    · rw [if_pos hw, hw]
      exact getAt_setAt_self _ _ _ _ h0 hvt
    · rw [if_neg hw]
      exact getAt_setAt_other _ _ _ _ _ h0 hw
  have hmono : ∀ w : Int, getAt s.idx w 0 ≠ -1 → getAt (tarjanVisit v s).idx w 0 ≠ -1 := by
    intro w hw
    rw [hidxnew w]
    by_cases hwv : w = v
    · rw [if_pos hwv]; omega
    · rw [if_neg hwv]; exact hw
  refine ⟨?_, hmono, ?_, ?_, by rw [heq]⟩
  · refine ⟨?_, ?_, ?_, ?_, ?_, ?_, ?_, ?_, ?_⟩
    · rw [heq]
      exact List.nodup_cons.mpr ⟨hvstk, hstknd⟩
    · intro w hw
      rw [heq] at hw
      simp only at hw
      rcases List.mem_cons.mp hw with rfl | hm
      · refine ⟨h0, hvn, ?_⟩
        rw [hidxnew w, if_pos rfl]
        omega
      · obtain ⟨hm0, hmn, hmi⟩ := hstkm w hm
        exact ⟨hm0, hmn, hmono w hmi⟩
    · rw [heq]
      simp only
      rw [List.nodup_append]
      exact ⟨hpund, List.nodup_singleton v,
        fun a ha hb => hvpu ((List.mem_singleton.mp hb) ▸ ha)⟩
    · intro w hw
      rw [heq] at hw
      simp only at hw
      rcases List.mem_append.mp hw with hm | hm
      · obtain ⟨hm0, hmn, hmi⟩ := hpum w hm
        exact ⟨hm0, hmn, hmono w hmi⟩
      · rcases List.mem_singleton.mp hm with rfl
        refine ⟨h0, hvn, ?_⟩
        rw [hidxnew w, if_pos rfl]
        omega
    · rw [heq]; exact hcap
    · rw [heq]; exact hgrew
    · rw [heq]
      simp only
      omega
    · rw [heq]
      simp only
      omega
    · rw [heq]
      simp only
      rw [setAt_length]
      exact hlen
  · rw [hidxnew v, if_pos rfl]
    omega
  · unfold unvisited
    apply filter_flip_length v.toNat
      (fun i : Nat => getAt s.idx ((i : Nat) : Int) 0 == -1)
      (fun i : Nat => getAt (tarjanVisit v s).idx ((i : Nat) : Int) 0 == -1)
    · intro i hi
      rw [hidxnew ((i : Nat) : Int), if_neg (by omega)]
    · have hc : ((v.toNat : Nat) : Int) = v := by omega
      rw [hc, hidx]
      rfl
    · have hc : ((v.toNat : Nat) : Int) = v := by omega
      rw [hc, hidxnew v, if_pos rfl]
      simp only [beq_eq_false_iff_ne, ne_eq]
      omega
    · exact List.nodup_range n
    · rw [List.mem_range]
      omega

/-- The extraction pop loop leaves the `index` array, the push log and all
stack-accounting ghosts unchanged and preserves the invariant (it only
pops). -/
theorem extractGo_spec (n : Nat) (root : Int) : ∀ (l : List Int) (s : TState),
    s.stack = l → TInv n s →
    TInv n (extractGo root l s) ∧
    (extractGo root l s).idx = s.idx ∧
    (extractGo root l s).fuelOut = s.fuelOut ∧
    (extractGo root l s).pushes = s.pushes ∧
    (extractGo root l s).maxTop = s.maxTop ∧
    (extractGo root l s).grew = s.grew ∧
    (extractGo root l s).stackCap = s.stackCap ∧
    (extractGo root l s).currentIndex = s.currentIndex := by
  intro l
  induction l with
  | nil =>
      intro s hs hinv
      obtain ⟨hstknd, hstkm, hpund, hpum, hcap, hgrew, hmax, hci, hlen⟩ := hinv
      refine ⟨⟨List.nodup_nil, ?_, hpund, hpum, hcap, hgrew, hmax, hci, hlen⟩,
        rfl, rfl, rfl, rfl, rfl, rfl, rfl⟩
      intro w hw
      cases hw
  | cons w rest ih =>
      intro s hs hinv
      obtain ⟨hstknd, hstkm, hpund, hpum, hcap, hgrew, hmax, hci, hlen⟩ := hinv
      rw [hs] at hstknd hstkm
      have hinv' : TInv n { s with
          stack := rest,
          components := modifyIdx s.components s.currentComponent.toNat
            (fun c => c ++ [w]),
          vertexToComponent := setAt s.vertexToComponent w (some s.currentComponent) } := by
        refine ⟨(List.nodup_cons.mp hstknd).2, ?_, hpund, hpum, hcap, hgrew,
          hmax, hci, hlen⟩
        intro x hx
        exact hstkm x (List.mem_cons_of_mem w hx)
      by_cases hw : w = root
      · have he : extractGo root (w :: rest) s = { s with
            stack := rest,
            components := modifyIdx s.components s.currentComponent.toNat
              (fun c => c ++ [w]),
            vertexToComponent := setAt s.vertexToComponent w (some s.currentComponent) } := by
          simp only [extractGo]
          rw [if_pos hw]
        rw [he]
        exact ⟨hinv', rfl, rfl, rfl, rfl, rfl, rfl, rfl⟩
      · have he : extractGo root (w :: rest) s = extractGo root rest { s with
            stack := rest,
            components := modifyIdx s.components s.currentComponent.toNat
              (fun c => c ++ [w]),
            vertexToComponent := setAt s.vertexToComponent w (some s.currentComponent) } := by
          simp only [extractGo]
          rw [if_neg hw]
        rw [he]
        exact ih _ rfl hinv'

theorem tarjan_extract_scc_spec (n : Nat) (s : TState) (root : Int)
    (hinv : TInv n s) :
    TInv n (tarjan_extract_scc s root) ∧
    (tarjan_extract_scc s root).idx = s.idx ∧
    (tarjan_extract_scc s root).fuelOut = s.fuelOut := by
  obtain ⟨h1, h2, h3, h4, h5, h6, h7, h8⟩ := extractGo_spec n root s.stack s rfl hinv
  obtain ⟨i1, i2, i3, i4, i5, i6, i7, i8, i9⟩ := h1
  exact ⟨⟨i1, i2, i3, i4, i5, i6, i7, i8, i9⟩, h2, h3⟩

theorem unvisited_congr (n : Nat) (s s' : TState) (h : s'.idx = s.idx) :
    unvisited n s' = unvisited n s := by
  unfold unvisited
  rw [h]

/-- One pass of the DFS edge loop preserves the invariant, the
visited-marks, and (fuel permitting) the fuel flag. -/
theorem tarjanEdges_inv (g : Graph) (n : Nat) (f : Nat)
    (hdfs : ∀ (v : Int) (s : TState), 0 ≤ v → v < (n : Int) →
      getAt s.idx v 0 = -1 → TInv n s →
      TInv n (tarjanDFS g f v s) ∧
      (∀ w : Int, getAt s.idx w 0 ≠ -1 → getAt (tarjanDFS g f v s).idx w 0 ≠ -1) ∧
      unvisited n (tarjanDFS g f v s) ≤ unvisited n s ∧
      (unvisited n s ≤ f →
        (tarjanDFS g f v s).fuelOut = s.fuelOut ∧
        unvisited n (tarjanDFS g f v s) < unvisited n s)) :
    ∀ (v : Int) (es : List Int) (s : TState),
      (∀ w ∈ es, 0 ≤ w ∧ w < (n : Int)) → TInv n s →
      TInv n (tarjanEdgesGo (tarjanDFS g f) v es s) ∧
      (∀ w : Int, getAt s.idx w 0 ≠ -1 →
        getAt (tarjanEdgesGo (tarjanDFS g f) v es s).idx w 0 ≠ -1) ∧
      unvisited n (tarjanEdgesGo (tarjanDFS g f) v es s) ≤ unvisited n s ∧
      (unvisited n s ≤ f →
        (tarjanEdgesGo (tarjanDFS g f) v es s).fuelOut = s.fuelOut) := by
  intro v es
  induction es with
  | nil =>
      intro s hes hinv
      exact ⟨hinv, fun w h => h, le_refl _, fun _ => rfl⟩
  | cons w ws ih =>
      intro s hes hinv
      obtain ⟨hw0, hwn⟩ := hes w (List.mem_cons_self w ws)
      have hestail : ∀ x ∈ ws, 0 ≤ x ∧ x < (n : Int) :=
        fun x hx => hes x (List.mem_cons_of_mem w hx)
      by_cases hidxw : getAt s.idx w 0 = -1
      · -- tree edge: recurse into w, then fold the child's lowlink
        obtain ⟨hdInv, hdMono, hdUc, hdFuel⟩ := hdfs w s hw0 hwn hidxw hinv
        have heq : tarjanEdgesGo (tarjanDFS g f) v (w :: ws) s =
            tarjanEdgesGo (tarjanDFS g f) v ws
              { tarjanDFS g f w s with
                low := setAt (tarjanDFS g f w s).low v
                  (min (getAt (tarjanDFS g f w s).low v 0)
                       (getAt (tarjanDFS g f w s).low w 0)) } := by
          simp only [tarjanEdgesGo]
          rw [if_pos hidxw]
        have hinvL : TInv n { tarjanDFS g f w s with
            low := setAt (tarjanDFS g f w s).low v
              (min (getAt (tarjanDFS g f w s).low v 0)
                   (getAt (tarjanDFS g f w s).low w 0)) } := hdInv
        obtain ⟨hrInv, hrMono, hrUc, hrFuel⟩ := ih _ hestail hinvL
        rw [heq]
        refine ⟨hrInv, ?_, ?_, ?_⟩
        · intro x hx
          exact hrMono x (hdMono x hx)
        · calc unvisited n (tarjanEdgesGo (tarjanDFS g f) v ws _) ≤ _ := hrUc
            _ ≤ unvisited n s := hdUc
        · intro hfuel
          obtain ⟨hfo, hlt⟩ := hdFuel hfuel
          have hfuel' : unvisited n { tarjanDFS g f w s with
              low := setAt (tarjanDFS g f w s).low v
                (min (getAt (tarjanDFS g f w s).low v 0)
                     (getAt (tarjanDFS g f w s).low w 0)) } ≤ f := by
            have hcg : unvisited n { tarjanDFS g f w s with
                low := setAt (tarjanDFS g f w s).low v
                  (min (getAt (tarjanDFS g f w s).low v 0)
                       (getAt (tarjanDFS g f w s).low w 0)) } =
                unvisited n (tarjanDFS g f w s) := unvisited_congr n _ _ rfl
            omega
          rw [hrFuel hfuel']
          exact hfo
      · by_cases honst : getAt s.onStack w false = true
        · -- back edge to an on-stack vertex: fold its index into the lowlink
          have heq : tarjanEdgesGo (tarjanDFS g f) v (w :: ws) s =
              tarjanEdgesGo (tarjanDFS g f) v ws
                { s with
                  low := setAt s.low v
                    (min (getAt s.low v 0) (getAt s.idx w 0)) } := by
            simp only [tarjanEdgesGo]
            rw [if_neg hidxw, if_pos honst]
          have hinvL : TInv n { s with
              low := setAt s.low v
                (min (getAt s.low v 0) (getAt s.idx w 0)) } := hinv
          obtain ⟨hrInv, hrMono, hrUc, hrFuel⟩ := ih _ hestail hinvL
          rw [heq]
          exact ⟨hrInv, fun x hx => hrMono x hx, hrUc, fun hf => hrFuel hf⟩
        · -- edge into a completed SCC: ignored
          have heq : tarjanEdgesGo (tarjanDFS g f) v (w :: ws) s =
              tarjanEdgesGo (tarjanDFS g f) v ws s := by
            simp only [tarjanEdgesGo]
            rw [if_neg hidxw, if_neg honst]
          rw [heq]
          exact ih _ hestail hinv

/-- The DFS preserves the engine invariant at every fuel, only marks
vertices visited, and with fuel at least the number of unvisited vertices
never exhausts it. -/
theorem tarjanDFS_inv (g : Graph) (n : Nat) (hn : g.vertices.length = n)
    (hedges : ∀ w ∈ g.vertices, ∀ d ∈ w.edges, 0 ≤ d ∧ d < (n : Int)) :
    ∀ (f : Nat) (v : Int) (s : TState), 0 ≤ v → v < (n : Int) →
      getAt s.idx v 0 = -1 → TInv n s →
      TInv n (tarjanDFS g f v s) ∧
      (∀ w : Int, getAt s.idx w 0 ≠ -1 → getAt (tarjanDFS g f v s).idx w 0 ≠ -1) ∧
      unvisited n (tarjanDFS g f v s) ≤ unvisited n s ∧
      (unvisited n s ≤ f →
        (tarjanDFS g f v s).fuelOut = s.fuelOut ∧
        unvisited n (tarjanDFS g f v s) < unvisited n s) := by
  intro f
  induction f with
  | zero =>
      intro v s h0 hvn hidx hinv
      refine ⟨hinv, fun w h => h, le_refl _, ?_⟩
      intro hf
      have := unvisited_pos n s v h0 hvn hidx
      omega
  | succ f ihf =>
      intro v s h0 hvn hidx hinv
      obtain ⟨hvInv, hvMono, hvVis, hvUc, hvFuel⟩ :=
        tarjanVisit_spec n v s h0 hvn hidx hinv
      have hvedges : ∀ d ∈ (g.vtx v).edges, 0 ≤ d ∧ d < (n : Int) := by
        intro d hd
        have hvt : v.toNat < g.vertices.length := by omega
        exact hedges _ (by
          simp only [Graph.vtx]
          exact getD_mem_of_lt _ _ _ hvt) d hd
      obtain ⟨heInv, heMono, heUc, heFuel⟩ :=
        tarjanEdges_inv g n f ihf v (g.vtx v).edges (tarjanVisit v s)
          hvedges hvInv
      have heq : tarjanDFS g (f + 1) v s =
          (if getAt (tarjanEdgesGo (tarjanDFS g f) v (g.vtx v).edges (tarjanVisit v s)).low v 0 =
              getAt (tarjanEdgesGo (tarjanDFS g f) v (g.vtx v).edges (tarjanVisit v s)).idx v 0
           then tarjan_extract_scc
              (tarjanEdgesGo (tarjanDFS g f) v (g.vtx v).edges (tarjanVisit v s)) v
           else tarjanEdgesGo (tarjanDFS g f) v (g.vtx v).edges (tarjanVisit v s)) := rfl
      by_cases hroot : getAt (tarjanEdgesGo (tarjanDFS g f) v (g.vtx v).edges (tarjanVisit v s)).low v 0 =
          getAt (tarjanEdgesGo (tarjanDFS g f) v (g.vtx v).edges (tarjanVisit v s)).idx v 0
      · obtain ⟨hxInv, hxIdx, hxFuel⟩ :=
          tarjan_extract_scc_spec n
            (tarjanEdgesGo (tarjanDFS g f) v (g.vtx v).edges (tarjanVisit v s)) v heInv
        have hres : tarjanDFS g (f + 1) v s = tarjan_extract_scc
            (tarjanEdgesGo (tarjanDFS g f) v (g.vtx v).edges (tarjanVisit v s)) v := by
          rw [heq, if_pos hroot]
        rw [hres]
        have hucx : unvisited n (tarjan_extract_scc
            (tarjanEdgesGo (tarjanDFS g f) v (g.vtx v).edges (tarjanVisit v s)) v) =
            unvisited n (tarjanEdgesGo (tarjanDFS g f) v (g.vtx v).edges (tarjanVisit v s)) :=
          unvisited_congr n _ _ hxIdx
        refine ⟨hxInv, ?_, ?_, ?_⟩
        · intro w hw
          rw [hxIdx]
          exact heMono w (hvMono w hw)
        · omega
        · intro hfuel
          have hfuel1 : unvisited n (tarjanVisit v s) ≤ f := by omega
          rw [hxFuel, heFuel hfuel1, hvFuel]
          constructor
          · rfl
          · omega
      · have hres : tarjanDFS g (f + 1) v s =
            tarjanEdgesGo (tarjanDFS g f) v (g.vtx v).edges (tarjanVisit v s) := by
          rw [heq, if_neg hroot]
        rw [hres]
        refine ⟨heInv, ?_, ?_, ?_⟩
        · intro w hw
          exact heMono w (hvMono w hw)
        · omega
        · intro hfuel
          have hfuel1 : unvisited n (tarjanVisit v s) ≤ f := by omega
          rw [heFuel hfuel1, hvFuel]
          constructor
          · rfl
          · omega

/-- The root loop of the Tarjan run preserves the invariant and never runs
out of fuel. -/
theorem tarjanMainLoop_inv (g : Graph) (n : Nat) (hn : g.vertices.length = n)
    (hedges : ∀ w ∈ g.vertices, ∀ d ∈ w.edges, 0 ≤ d ∧ d < (n : Int)) :
    ∀ (is : List Nat) (s : TState), (∀ i ∈ is, i < n) → TInv n s →
      TInv n (tarjanMainLoop g is s) ∧
      (tarjanMainLoop g is s).fuelOut = s.fuelOut := by
  intro is
  induction is with
  | nil => intro s _ hinv; exact ⟨hinv, rfl⟩
  | cons i is' ih =>
      intro s his hinv
      have hin : i < n := his i (List.mem_cons_self i is')
      have histail : ∀ j ∈ is', j < n := fun j hj => his j (List.mem_cons_of_mem i hj)
      by_cases hidx : getAt s.idx (i : Int) 0 = -1
      · have heq : tarjanMainLoop g (i :: is') s =
            tarjanMainLoop g is' (tarjanDFS g g.vertices.length (i : Int) s) := by
          simp only [tarjanMainLoop]
          rw [if_pos hidx]
        obtain ⟨hdInv, -, -, hdFuel⟩ :=
          tarjanDFS_inv g n hn hedges g.vertices.length (i : Int) s
            (by omega) (by omega) hidx hinv
        have hfuel : unvisited n s ≤ g.vertices.length := by
          have := unvisited_le n s
          omega
        obtain ⟨hfo, -⟩ := hdFuel hfuel
        obtain ⟨hmInv, hmFo⟩ := ih _ histail hdInv
        rw [heq]
        exact ⟨hmInv, by rw [hmFo, hfo]⟩
      · have heq : tarjanMainLoop g (i :: is') s = tarjanMainLoop g is' s := by
          simp only [tarjanMainLoop]
          rw [if_neg hidx]
        rw [heq]
        exact ih _ histail hinv

/-- C10.  On any graph whose edge destinations are in range, during the
whole embedded Tarjan run each vertex is pushed at most once (the ghost
push log stays duplicate-free), the high-water mark of `stack_top` never
exceeds `num_vertices`, the stack capacity stays at its initial
`num_vertices` and the capacity-doubling branch of `tarjan_stack_push` is
never taken (`grew` stays `false`); the model's fuel never runs out, so
this covers the full C recursion. -/
theorem c10_stack_never_grows (g : Graph) (hedges : edgesInRange g) :
    (tarjanRun g).pushes.Nodup ∧
    (tarjanRun g).maxTop ≤ g.vertices.length ∧
    (tarjanRun g).grew = false ∧
    (tarjanRun g).stackCap = (g.vertices.length : Int) ∧
    (tarjanRun g).fuelOut = false := by
  have hedges' : ∀ w ∈ g.vertices, ∀ d ∈ w.edges,
      0 ≤ d ∧ d < ((g.vertices.length : Nat) : Int) := by
    intro w hw d hd
    exact hedges w hw d hd
  have hinit : TInv g.vertices.length (tarjanInit g) := by
    refine ⟨List.nodup_nil, ?_, List.nodup_nil, ?_, rfl, rfl, ?_, le_refl _, ?_⟩
    · intro w hw; cases hw
    · intro w hw; cases hw
    · exact Nat.zero_le _
    · simp [tarjanInit]
  obtain ⟨hfinal, hfo⟩ :=
    tarjanMainLoop_inv g g.vertices.length rfl hedges'
      (List.range g.vertices.length) (tarjanInit g)
      (fun i hi => List.mem_range.mp hi) hinit
  obtain ⟨-, -, hpund, -, hcap, hgrew, hmax, -, -⟩ := hfinal
  exact ⟨hpund, hmax, hgrew, hcap, hfo⟩

/-- Witness for C10 at a concrete input: on the three-vertex graph `gW3`
the run pushes each vertex once, tops out at `stack_top = 1 ≤ 3`, and
never doubles the capacity. -/
theorem c10_witness :
    edgesInRange gW3 ∧
    (tarjanRun gW3).pushes.Nodup ∧
    (tarjanRun gW3).maxTop ≤ gW3.vertices.length ∧
    (tarjanRun gW3).grew = false ∧
    (tarjanRun gW3).stackCap = (gW3.vertices.length : Int) := by
  have h := c10_stack_never_grows gW3 (by decide)
  exact ⟨by decide, h.1, h.2.1, h.2.2.1, h.2.2.2.1⟩

end SCC
